import Mathlib

/-!
# Verification of the credential-free Reddit fan-out search engine

Shallow embedding of `tools/content-suite/reddit_scout_noapi.py`:
the query sanitizer, the rate-limited fetch client, the LLM query-plan
parser/validator, and the two-phase fan-out search engine, together with
theorems settling the specification claims about them.

Network effects (HTTP responses, search results, wall-clock deadline
checks) are modelled as explicit oracles passed to the embedded
functions, so that every definition is executable and every proved
property quantifies over all possible environment behaviours.
-/

namespace RedditScout

/-! ## Query sanitizer (`_sanitize_query`)

The Python source is three regex passes:
```
query = re.sub(r'\bAND\b', '', query)
query = re.sub(r'[()]', '', query)
return re.sub(r'\s+', ' ', query).strip()
```
`\w` (hence `\b`) is modelled over its ASCII fragment `[A-Za-z0-9_]`,
and `\s` as `[ \t\n\r\v\f]`, which covers the query strings this
program manipulates. -/

/-- Word character for the purposes of the `\b` boundary in `\bAND\b`:
ASCII fragment of Python's `\w`, i.e. `[A-Za-z0-9_]`. -/
def isWordChar (c : Char) : Bool :=
  c.isAlphanum || c == '_'

/-- Whitespace for the purposes of `\s+` and `.strip()`:
ASCII fragment of Python's `\s`, i.e. `[ \t\n\r\v\f]`. -/
def isSpaceChar (c : Char) : Bool :=
  c == ' ' || c == '\t' || c == '\n' || c == '\r' || c == '\x0b' || c == '\x0c'

/-- The characters of the token `AND`. -/
def andRun : List Char := ['A', 'N', 'D']

/-- Flush an accumulated maximal word run: a run equal to `AND` is a
`\bAND\b` match and is deleted, any other run is kept verbatim. -/
def flushRun (run rest : List Char) : List Char :=
  (if run = andRun then [] else run) ++ rest

/-- Scanner for `re.sub(r'\bAND\b', '', query)`.  `\bAND\b` matches
exactly the maximal runs of word characters that equal `AND` (the two
boundaries force the run to start at `A` and end at `D`), so the
substitution deletes exactly those runs.  `acc` is the word run
accumulated so far. -/
def scanRuns (acc : List Char) : List Char → List Char
  | [] => flushRun acc []
  | c :: cs =>
    if isWordChar c then scanRuns (acc ++ [c]) cs
    else flushRun acc (c :: scanRuns [] cs)

/-- Models `re.sub(r'\bAND\b', '', query)` on the character list of a query. -/
def removeAndTokens (l : List Char) : List Char := scanRuns [] l

/-- Models `re.sub(r'[()]', '', query)`: delete all parentheses. -/
def removeParens (l : List Char) : List Char :=
  l.filter (fun c => !(c == '(' || c == ')'))

/-- Scanner for `re.sub(r'\s+', ' ', query)`: each maximal whitespace
run is replaced by a single space.  `inSpace` records whether the
previous character belonged to a whitespace run whose single space has
already been emitted. -/
def collapseSpacesGo (inSpace : Bool) : List Char → List Char
  | [] => []
  | c :: cs =>
    if isSpaceChar c then
      if inSpace then collapseSpacesGo true cs
      else ' ' :: collapseSpacesGo true cs
    else c :: collapseSpacesGo false cs

/-- Models `re.sub(r'\s+', ' ', query)`. -/
def collapseSpaces (l : List Char) : List Char := collapseSpacesGo false l

/-- Models `.strip()`: drop leading and trailing whitespace. -/
def stripEnds (l : List Char) : List Char :=
  ((l.dropWhile isSpaceChar).reverse.dropWhile isSpaceChar).reverse

/-- Models `_sanitize_query`: strip explicit `AND` tokens, remove parentheses,
collapse whitespace, trim. -/
def sanitizeQuery (q : String) : String :=
  ⟨stripEnds (collapseSpaces (removeParens (removeAndTokens q.data)))⟩

/-- Scanner deciding that a string contains no `\bAND\b` match, i.e. no
maximal word run equal to `AND`; mirrors the recursion of `scanRuns`. -/
def noAndScan (acc : List Char) : List Char → Bool
  | [] => if acc = andRun then false else true
  | c :: cs =>
    if isWordChar c then noAndScan (acc ++ [c]) cs
    else if acc = andRun then false else noAndScan [] cs

/-- Whitespace characters are not word characters. -/
theorem isSpaceChar_not_word {c : Char} (h : isSpaceChar c = true) :
    isWordChar c = false := by
  simp only [isSpaceChar, Bool.or_eq_true, beq_iff_eq] at h
  rcases h with ((((h | h) | h) | h) | h) | h <;> subst h <;> decide

/-- Prepending a block of word characters to the input extends the
accumulated run. -/
theorem scanRuns_append_word (w : List Char) (hw : ∀ c ∈ w, isWordChar c) :
    ∀ (acc l : List Char), scanRuns acc (w ++ l) = scanRuns (acc ++ w) l := by
  induction w with
  | nil => intro acc l; simp
  | cons c w ih =>
    intro acc l
    have hc : isWordChar c := hw c (by simp)
    have hw' : ∀ d ∈ w, isWordChar d := fun d hd => hw d (by simp [hd])
    simp only [List.cons_append, scanRuns, hc, if_true, List.append_eq]
    rw [ih hw']
    simp

/-- Same for `noAndScan`. -/
theorem noAndScan_append_word (w : List Char) (hw : ∀ c ∈ w, isWordChar c) :
    ∀ (acc l : List Char), noAndScan acc (w ++ l) = noAndScan (acc ++ w) l := by
  induction w with
  | nil => intro acc l; simp
  | cons c w ih =>
    intro acc l
    have hc : isWordChar c := hw c (by simp)
    have hw' : ∀ d ∈ w, isWordChar d := fun d hd => hw d (by simp [hd])
    simp only [List.cons_append, noAndScan, hc, if_true, List.append_eq]
    rw [ih hw']
    simp

/-- A string with no `AND` run is left unchanged by the `AND` scanner. -/
theorem scanRuns_of_noAndScan :
    ∀ (l acc : List Char), noAndScan acc l = true → scanRuns acc l = acc ++ l := by
  intro l
  induction l with
  | nil =>
    intro acc h
    simp only [noAndScan] at h
    by_cases hacc : acc = andRun
    · simp [hacc] at h
    · simp [scanRuns, flushRun, hacc]
  | cons c cs ih =>
    intro acc h
    by_cases hc : isWordChar c
    · simp only [noAndScan, hc, if_true] at h
      simp only [scanRuns, hc, if_true, ih _ h]
      simp
    · simp only [noAndScan, hc, Bool.false_eq_true, if_false] at h
      by_cases hacc : acc = andRun
      · simp [hacc] at h
      · simp only [hacc, if_false] at h
        simp [scanRuns, hc, flushRun, hacc, ih _ h]

/-- The output of the `AND` scanner contains no `AND` run. -/
theorem noAndScan_scanRuns :
    ∀ (l acc : List Char), (∀ c ∈ acc, isWordChar c) →
      noAndScan [] (scanRuns acc l) = true := by
  intro l
  induction l with
  | nil =>
    intro acc hacc
    by_cases h : acc = andRun
    · subst h; simp [scanRuns, flushRun, noAndScan, andRun]
    · have h2 := noAndScan_append_word acc hacc [] []
      simp only [List.append_nil, List.nil_append] at h2
      simp only [scanRuns, flushRun, h, if_false, List.append_nil]
      rw [h2]
      simp [noAndScan, h]
  | cons c cs ih =>
    intro acc hacc
    by_cases hc : isWordChar c
    · simp only [scanRuns, hc, if_true]
      refine ih _ ?_
      intro d hd
      rcases List.mem_append.1 hd with h | h
      · exact hacc d h
      · simp only [List.mem_singleton] at h; subst h; exact hc
    · simp only [scanRuns, hc, Bool.false_eq_true, if_false, flushRun]
      by_cases h : acc = andRun
      · simp only [h, if_true, List.nil_append]
        simp only [noAndScan, hc, Bool.false_eq_true, if_false, andRun,
          reduceCtorEq, ite_false]
        exact ih [] (by simp)
      · simp only [h, if_false]
        have h2 := noAndScan_append_word acc hacc [] (c :: scanRuns [] cs)
        simp only [List.nil_append] at h2
        rw [h2]
        simp only [noAndScan, hc, Bool.false_eq_true, if_false, h, ite_false]
        exact ih [] (by simp)

/-- Key stability property: rescanning the output of the `AND` scanner
changes nothing. -/
theorem scanRuns_idem :
    ∀ (l acc : List Char), (∀ c ∈ acc, isWordChar c) →
      scanRuns [] (scanRuns acc l) = scanRuns acc l := by
  intro l acc hacc
  have h := noAndScan_scanRuns l acc hacc
  simpa using scanRuns_of_noAndScan _ [] h

/-- Whether a character list starts with a whitespace character. -/
def headIsSpace : List Char → Bool
  | [] => false
  | c :: _ => isSpaceChar c

/-- After the single space of a whitespace run has been emitted, the
collapser's output starts with a non-space character. -/
theorem headIsSpace_collapseGo_true :
    ∀ l : List Char, headIsSpace (collapseSpacesGo true l) = false := by
  intro l
  induction l with
  | nil => rfl
  | cons c cs ih =>
    by_cases hc : isSpaceChar c
    · simpa [collapseSpacesGo, hc] using ih
    · simp [collapseSpacesGo, hc, headIsSpace]

/-- Dropping leading whitespace from the collapser's output is the same
as starting the collapser in skip mode. -/
theorem dropWhile_collapseGo_false :
    ∀ l : List Char,
      (collapseSpacesGo false l).dropWhile isSpaceChar = collapseSpacesGo true l := by
  intro l
  induction l with
  | nil => rfl
  | cons c cs ih =>
    by_cases hc : isSpaceChar c
    · simp only [collapseSpacesGo, hc, if_true, Bool.false_eq_true, if_false,
        List.dropWhile_cons]
      simp only [show isSpaceChar ' ' = true from rfl, if_true]
      have h := headIsSpace_collapseGo_true cs
      cases hcol : collapseSpacesGo true cs with
      | nil => simp
      | cons d ds =>
        rw [hcol] at h
        simp only [headIsSpace] at h
        simp [List.dropWhile_cons, h]
    · simp [collapseSpacesGo, hc, List.dropWhile_cons]

/-- Normal form of collapsed whitespace: every whitespace character is a
plain space that is not followed by another whitespace character. -/
def wellSpaced : List Char → Bool
  | [] => true
  | [c] => !isSpaceChar c || c == ' '
  | c :: d :: rest => (!isSpaceChar c || (c == ' ' && !isSpaceChar d)) && wellSpaced (d :: rest)

/-- The collapser's output is in whitespace normal form. -/
theorem wellSpaced_collapseGo :
    ∀ (l : List Char) (f : Bool), wellSpaced (collapseSpacesGo f l) = true := by
  intro l
  induction l with
  | nil => intro f; rfl
  | cons c cs ih =>
    intro f
    by_cases hc : isSpaceChar c
    · cases f with
      | true => simpa [collapseSpacesGo, hc] using ih true
      | false =>
        simp only [collapseSpacesGo, hc, if_true]
        have hhead := headIsSpace_collapseGo_true cs
        have hws := ih true
        cases hcol : collapseSpacesGo true cs with
        | nil => decide
        | cons d ds =>
          rw [hcol] at hhead hws
          simp only [headIsSpace] at hhead
          simp [wellSpaced, hhead, hws]
    · simp only [collapseSpacesGo, hc, Bool.false_eq_true, if_false]
      have hws := ih false
      cases hcol : collapseSpacesGo false cs with
      | nil => simp [wellSpaced, hc]
      | cons d ds =>
        rw [hcol] at hws
        simp [wellSpaced, hc, hws]

/-- Whitespace normal form is closed under taking prefixes. -/
theorem wellSpaced_append_left :
    ∀ (a b : List Char), wellSpaced (a ++ b) = true → wellSpaced a = true := by
  intro a
  induction a with
  | nil => intro b _; rfl
  | cons c a' ih =>
    intro b h
    cases a' with
    | nil =>
      cases b with
      | nil => simpa using h
      | cons d ds =>
        simp only [List.cons_append, List.nil_append, wellSpaced,
          Bool.and_eq_true] at h
        rcases h with ⟨h1, _⟩
        simp only [Bool.or_eq_true, Bool.and_eq_true] at h1
        simp only [wellSpaced, Bool.or_eq_true, Bool.and_eq_true]
        rcases h1 with h | ⟨h, _⟩
        · exact Or.inl h
        · exact Or.inr h
    | cons d a'' =>
      simp only [List.cons_append, wellSpaced, Bool.and_eq_true] at h ⊢
      exact ⟨h.1, ih b h.2⟩

/-- The collapser is the identity on whitespace normal forms (in skip
mode, provided the input does not start with whitespace). -/
theorem collapseGo_of_wellSpaced :
    ∀ (l : List Char) (f : Bool), wellSpaced l = true →
      (f = true → headIsSpace l = false) → collapseSpacesGo f l = l := by
  intro l
  induction l with
  | nil => intro f _ _; rfl
  | cons c cs ih =>
    intro f hws hhead
    by_cases hc : isSpaceChar c
    · cases f with
      | true =>
        have := hhead rfl
        simp [headIsSpace, hc] at this
      | false =>
        simp only [collapseSpacesGo, hc, if_true, Bool.false_eq_true, if_false]
        cases cs with
        | nil =>
          simp only [wellSpaced, hc, Bool.not_true, Bool.false_or,
            beq_iff_eq] at hws
          simp [collapseSpacesGo, hws]
        | cons d ds =>
          simp only [wellSpaced, hc, Bool.not_true, Bool.false_or,
            Bool.and_eq_true, beq_iff_eq] at hws
          rcases hws with ⟨⟨hceq, hd⟩, hws'⟩
          have hd' : isSpaceChar d = false := by simpa using hd
          rw [ih true hws' (by intro _; simp [headIsSpace, hd'])]
          rw [hceq]
    · simp only [collapseSpacesGo, hc, Bool.false_eq_true, if_false]
      have hws' : wellSpaced cs = true := by
        cases cs with
        | nil => rfl
        | cons d ds =>
          simp only [wellSpaced, Bool.and_eq_true] at hws
          exact hws.2
      rw [ih false hws' (by intro h; cases h)]

/-- Drop trailing whitespace. -/
def dropTrailing (l : List Char) : List Char :=
  (l.reverse.dropWhile isSpaceChar).reverse

theorem stripEnds_eq (l : List Char) :
    stripEnds l = dropTrailing (l.dropWhile isSpaceChar) := rfl

/-- Every list splits as its trailing-whitespace-free prefix plus a
whitespace tail. -/
theorem dropTrailing_decomp (l : List Char) :
    ∃ t, l = dropTrailing l ++ t ∧ ∀ c ∈ t, isSpaceChar c := by
  refine ⟨(l.reverse.takeWhile isSpaceChar).reverse, ?_, ?_⟩
  · conv_lhs => rw [← l.reverse_reverse,
      ← List.takeWhile_append_dropWhile isSpaceChar l.reverse]
    rw [List.reverse_append]
    rfl
  · intro c hc
    rw [List.mem_reverse] at hc
    exact List.mem_takeWhile_imp hc

theorem dropTrailing_idem (l : List Char) :
    dropTrailing (dropTrailing l) = dropTrailing l := by
  unfold dropTrailing
  rw [List.reverse_reverse, List.dropWhile_idempotent]

theorem headIsSpace_dropTrailing (l : List Char) (h : headIsSpace l = false) :
    headIsSpace (dropTrailing l) = false := by
  obtain ⟨t, hl, _⟩ := dropTrailing_decomp l
  cases hd : dropTrailing l with
  | nil => rfl
  | cons c cs =>
    rw [hd] at hl
    rw [hl] at h
    simpa [headIsSpace] using h

theorem wellSpaced_dropTrailing (l : List Char) (h : wellSpaced l = true) :
    wellSpaced (dropTrailing l) = true := by
  obtain ⟨t, hl, _⟩ := dropTrailing_decomp l
  exact wellSpaced_append_left _ t (hl ▸ h)

theorem dropWhile_of_head_not_space (l : List Char) (h : headIsSpace l = false) :
    l.dropWhile isSpaceChar = l := by
  cases l with
  | nil => rfl
  | cons c cs =>
    simp only [headIsSpace] at h
    simp [List.dropWhile_cons, h]

/-- A list of non-word characters contains no `AND` run. -/
theorem noAndScan_all_nonword :
    ∀ s : List Char, (∀ c ∈ s, isWordChar c = false) → noAndScan [] s = true := by
  intro s
  induction s with
  | nil => intro _; rfl
  | cons c cs ih =>
    intro h
    have hc : isWordChar c = false := h c (by simp)
    simp only [noAndScan, hc, Bool.false_eq_true, if_false]
    rw [if_neg (by decide : ¬([] : List Char) = andRun)]
    exact ih (fun d hd => h d (by simp [hd]))

/-- Appending non-word characters does not create or destroy `AND` runs. -/
theorem noAndScan_append_nonword :
    ∀ (a s acc : List Char), (∀ c ∈ s, isWordChar c = false) →
      noAndScan acc (a ++ s) = noAndScan acc a := by
  intro a
  induction a with
  | nil =>
    intro s acc hs
    cases s with
    | nil => simp
    | cons c s' =>
      have hc : isWordChar c = false := hs c (by simp)
      have hrest : noAndScan [] s' = true :=
        noAndScan_all_nonword s' (fun d hd => hs d (by simp [hd]))
      simp only [List.nil_append, noAndScan, hc, Bool.false_eq_true, if_false]
      by_cases hacc : acc = andRun
      · simp [hacc]
      · rw [if_neg hacc, if_neg hacc, hrest]
  | cons c a' ih =>
    intro s acc hs
    by_cases hc : isWordChar c
    · simp only [List.cons_append, noAndScan, hc, if_true]
      exact ih s _ hs
    · simp only [List.cons_append, noAndScan, hc, Bool.false_eq_true, if_false]
      by_cases hacc : acc = andRun
      · simp [hacc]
      · rw [if_neg hacc, if_neg hacc]
        exact ih s [] hs

theorem noAndScan_dropWhile_space (l : List Char) (h : noAndScan [] l = true) :
    noAndScan [] (l.dropWhile isSpaceChar) = true := by
  induction l with
  | nil => exact h
  | cons c cs ih =>
    by_cases hc : isSpaceChar c
    · have hw : isWordChar c = false := isSpaceChar_not_word hc
      simp only [List.dropWhile_cons, hc, if_true]
      simp only [noAndScan, hw, Bool.false_eq_true, if_false] at h
      rw [if_neg (by decide : ¬([] : List Char) = andRun)] at h
      exact ih h
    · simpa [List.dropWhile_cons, hc] using h

/-- Collapsing whitespace preserves absence of `AND` runs. -/
theorem noAndScan_collapseGo :
    ∀ (l : List Char) (f : Bool) (acc : List Char),
      (∀ c ∈ acc, isWordChar c) → (f = true → acc = []) →
      noAndScan acc l = true → noAndScan acc (collapseSpacesGo f l) = true := by
  intro l
  induction l with
  | nil => intro f acc _ _ h; exact h
  | cons c cs ih =>
    intro f acc haccw hf h
    by_cases hc : isSpaceChar c
    · have hw : isWordChar c = false := isSpaceChar_not_word hc
      simp only [noAndScan, hw, Bool.false_eq_true, if_false] at h
      by_cases hacc : acc = andRun
      · rw [if_pos hacc] at h; cases h
      · rw [if_neg hacc] at h
        cases f with
        | true =>
          have hacc0 : acc = [] := hf rfl
          subst hacc0
          simp only [collapseSpacesGo, hc, if_true]
          exact ih true [] (by simp) (fun _ => rfl) h
        | false =>
          simp only [collapseSpacesGo, hc, if_true, Bool.false_eq_true, if_false]
          simp only [noAndScan, show isWordChar ' ' = false from rfl,
            Bool.false_eq_true, if_false]
          rw [if_neg hacc]
          exact ih true [] (by simp) (fun _ => rfl) h
    · by_cases hcw : isWordChar c
      · simp only [collapseSpacesGo, hc, Bool.false_eq_true, if_false]
        simp only [noAndScan, hcw, if_true] at h ⊢
        refine ih false _ ?_ (fun h' => by cases h') h
        intro d hd
        rcases List.mem_append.1 hd with hmem | hmem
        · exact haccw d hmem
        · simp only [List.mem_singleton] at hmem; subst hmem; exact hcw
      · simp only [collapseSpacesGo, hc, Bool.false_eq_true, if_false]
        simp only [noAndScan, hcw, Bool.false_eq_true, if_false] at h ⊢
        by_cases hacc : acc = andRun
        · rw [if_pos hacc] at h; cases h
        · rw [if_neg hacc] at h; rw [if_neg hacc]
          exact ih false [] (by simp) (fun h' => by cases h') h

/-- Characters of a flushed run come from the run or the continuation. -/
theorem mem_flushRun {c : Char} {run rest : List Char} (h : c ∈ flushRun run rest) :
    c ∈ run ∨ c ∈ rest := by
  unfold flushRun at h
  by_cases hr : run = andRun
  · rw [if_pos hr] at h
    exact Or.inr (by simpa using h)
  · rw [if_neg hr] at h
    exact List.mem_append.1 h

/-- The `AND` scanner only ever emits characters of its input. -/
theorem mem_scanRuns :
    ∀ (l acc : List Char) (c : Char), c ∈ scanRuns acc l → c ∈ acc ∨ c ∈ l := by
  intro l
  induction l with
  | nil =>
    intro acc c h
    simp only [scanRuns] at h
    rcases mem_flushRun h with h | h
    · exact Or.inl h
    · cases h
  | cons d cs ih =>
    intro acc c h
    by_cases hd : isWordChar d
    · simp only [scanRuns, hd, if_true] at h
      rcases ih _ c h with h | h
      · rcases List.mem_append.1 h with h | h
        · exact Or.inl h
        · simp only [List.mem_singleton] at h; subst h
          exact Or.inr (by simp)
      · exact Or.inr (by simp [h])
    · simp only [scanRuns, hd, Bool.false_eq_true, if_false] at h
      rcases mem_flushRun h with h | h
      · exact Or.inl h
      · rcases List.mem_cons.1 h with h | h
        · subst h; exact Or.inr (by simp)
        · rcases ih [] c h with h | h
          · cases h
          · exact Or.inr (by simp [h])

/-- The whitespace collapser only emits spaces or characters of its input. -/
theorem mem_collapseGo :
    ∀ (l : List Char) (f : Bool) (c : Char),
      c ∈ collapseSpacesGo f l → c = ' ' ∨ c ∈ l := by
  intro l
  induction l with
  | nil => intro f c h; cases h
  | cons d cs ih =>
    intro f c h
    by_cases hd : isSpaceChar d
    · cases f with
      | true =>
        simp only [collapseSpacesGo, hd, if_true] at h
        rcases ih true c h with h | h
        · exact Or.inl h
        · exact Or.inr (by simp [h])
      | false =>
        simp only [collapseSpacesGo, hd, if_true, Bool.false_eq_true, if_false] at h
        rcases List.mem_cons.1 h with h | h
        · exact Or.inl h
        · rcases ih true c h with h | h
          · exact Or.inl h
          · exact Or.inr (by simp [h])
    · simp only [collapseSpacesGo, hd, Bool.false_eq_true, if_false] at h
      rcases List.mem_cons.1 h with h | h
      · subst h; exact Or.inr (by simp)
      · rcases ih false c h with h | h
        · exact Or.inl h
        · exact Or.inr (by simp [h])

theorem mem_dropWhile {p : Char → Bool} :
    ∀ (l : List Char) (c : Char), c ∈ l.dropWhile p → c ∈ l := by
  intro l
  induction l with
  | nil => intro c h; cases h
  | cons d cs ih =>
    intro c h
    rw [List.dropWhile_cons] at h
    by_cases hd : p d
    · rw [if_pos hd] at h
      exact by simp [ih c h]
    · rw [if_neg hd] at h
      exact h

theorem mem_dropTrailing {l : List Char} {c : Char} (h : c ∈ dropTrailing l) :
    c ∈ l := by
  obtain ⟨t, hl, _⟩ := dropTrailing_decomp l
  rw [hl]
  exact List.mem_append.2 (Or.inl h)

theorem mem_stripEnds {l : List Char} {c : Char} (h : c ∈ stripEnds l) : c ∈ l := by
  rw [stripEnds_eq] at h
  exact mem_dropWhile l c (mem_dropTrailing h)

/-- Paren removal is the identity on paren-free inputs. -/
theorem removeParens_eq_self {l : List Char} (h1 : '(' ∉ l) (h2 : ')' ∉ l) :
    removeParens l = l := by
  unfold removeParens
  rw [List.filter_eq_self]
  intro a ha
  have ha1 : a ≠ '(' := fun h => h1 (h ▸ ha)
  have ha2 : a ≠ ')' := fun h => h2 (h ▸ ha)
  simp [ha1, ha2]

/-- The normalized form `dropTrailing (collapseSpacesGo true X)` (what
sanitization produces after `AND`/paren removal) carries no `AND` run
when `X` has none. -/
theorem noAndScan_normalized (X : List Char) (hX : noAndScan [] X = true) :
    noAndScan [] (dropTrailing (collapseSpacesGo true X)) = true := by
  have hcf : noAndScan [] (collapseSpacesGo false X) = true :=
    noAndScan_collapseGo X false [] (by simp) (fun h => by cases h) hX
  have hct : noAndScan [] (collapseSpacesGo true X) = true := by
    have h := noAndScan_dropWhile_space _ hcf
    rwa [dropWhile_collapseGo_false] at h
  obtain ⟨t, hdecomp, htsp⟩ := dropTrailing_decomp (collapseSpacesGo true X)
  have ht : ∀ c ∈ t, isWordChar c = false :=
    fun c hc => isSpaceChar_not_word (htsp c hc)
  have happ := noAndScan_append_nonword (dropTrailing (collapseSpacesGo true X)) t [] ht
  rw [← happ, ← hdecomp]
  exact hct

/-- The normalized form is a fixpoint of whitespace collapsing. -/
theorem collapseSpaces_normalized (X : List Char) :
    collapseSpaces (dropTrailing (collapseSpacesGo true X)) =
      dropTrailing (collapseSpacesGo true X) := by
  unfold collapseSpaces
  exact collapseGo_of_wellSpaced _ false
    (wellSpaced_dropTrailing _ (wellSpaced_collapseGo X true))
    (fun h => by cases h)

/-- The normalized form is a fixpoint of end trimming. -/
theorem stripEnds_normalized (X : List Char) :
    stripEnds (dropTrailing (collapseSpacesGo true X)) =
      dropTrailing (collapseSpacesGo true X) := by
  rw [stripEnds_eq,
    dropWhile_of_head_not_space _
      (headIsSpace_dropTrailing _ (headIsSpace_collapseGo_true X)),
    dropTrailing_idem]

/-- Characters of the normalized form are spaces or characters of `X`. -/
theorem mem_normalized {X : List Char} {c : Char}
    (h : c ∈ dropTrailing (collapseSpacesGo true X)) : c = ' ' ∨ c ∈ X := by
  exact mem_collapseGo X true c (mem_dropTrailing h)

/-- On paren-free inputs, sanitization is `AND` removal followed by
whitespace normalization. -/
theorem sanitizeQuery_eq_of_no_parens (q : String)
    (h1 : '(' ∉ q.data) (h2 : ')' ∉ q.data) :
    sanitizeQuery q =
      ⟨dropTrailing (collapseSpacesGo true (removeAndTokens q.data))⟩ := by
  have hsub : ∀ c ∈ removeAndTokens q.data, c ∈ q.data := by
    intro c hc
    rcases mem_scanRuns q.data [] c hc with h | h
    · cases h
    · exact h
  have hRP : removeParens (removeAndTokens q.data) = removeAndTokens q.data :=
    removeParens_eq_self (fun h => h1 (hsub _ h)) (fun h => h2 (hsub _ h))
  unfold sanitizeQuery collapseSpaces
  rw [hRP, stripEnds_eq, dropWhile_collapseGo_false]

/-- On paren-free inputs the sanitizer is idempotent, and its output
contains no `AND` token. -/
theorem sanitizeQuery_idem_core (q : String)
    (h1 : '(' ∉ q.data) (h2 : ')' ∉ q.data) :
    sanitizeQuery (sanitizeQuery q) = sanitizeQuery q
      ∧ noAndScan [] (sanitizeQuery q).data = true := by
  have hsq := sanitizeQuery_eq_of_no_parens q h1 h2
  have hsub : ∀ c ∈ removeAndTokens q.data, c ∈ q.data := by
    intro c hc
    rcases mem_scanRuns q.data [] c hc with h | h
    · cases h
    · exact h
  have hnA_X : noAndScan [] (removeAndTokens q.data) = true :=
    noAndScan_scanRuns q.data [] (by simp)
  have hnA_R := noAndScan_normalized (removeAndTokens q.data) hnA_X
  have hmemR : ∀ c ∈ dropTrailing (collapseSpacesGo true (removeAndTokens q.data)),
      c = ' ' ∨ c ∈ q.data := by
    intro c hc
    rcases mem_normalized hc with h | h
    · exact Or.inl h
    · exact Or.inr (hsub c h)
  have hRp1 : '(' ∉ dropTrailing (collapseSpacesGo true (removeAndTokens q.data)) := by
    intro h
    rcases hmemR _ h with h' | h'
    · exact absurd h' (by decide)
    · exact h1 h'
  have hRp2 : ')' ∉ dropTrailing (collapseSpacesGo true (removeAndTokens q.data)) := by
    intro h
    rcases hmemR _ h with h' | h'
    · exact absurd h' (by decide)
    · exact h2 h'
  have hRemAnd : removeAndTokens
      (dropTrailing (collapseSpacesGo true (removeAndTokens q.data))) =
      dropTrailing (collapseSpacesGo true (removeAndTokens q.data)) := by
    have h := scanRuns_of_noAndScan _ [] hnA_R
    simpa [removeAndTokens] using h
  constructor
  · rw [hsq]
    show (⟨stripEnds (collapseSpaces (removeParens (removeAndTokens
        (dropTrailing (collapseSpacesGo true (removeAndTokens q.data))))))⟩ : String) = _
    rw [hRemAnd, removeParens_eq_self hRp1 hRp2, collapseSpaces_normalized,
      stripEnds_normalized]
  · rw [hsq]
    exact hnA_R

/-- The sanitizer deletes every parenthesis, from any input. -/
theorem sanitizeQuery_no_parens (q : String) :
    '(' ∉ (sanitizeQuery q).data ∧ ')' ∉ (sanitizeQuery q).data := by
  have hmem : ∀ c ∈ (sanitizeQuery q).data, c = ' ' ∨ c ∈ removeParens (removeAndTokens q.data) := by
    intro c hc
    have hc2 := @mem_stripEnds (collapseSpaces (removeParens (removeAndTokens q.data))) _ hc
    exact mem_collapseGo _ false c hc2
  constructor
  · intro h
    rcases hmem _ h with h' | h'
    · exact absurd h' (by decide)
    · simp [removeParens, List.mem_filter] at h'
  · intro h
    rcases hmem _ h with h' | h'
    · exact absurd h' (by decide)
    · simp [removeParens, List.mem_filter] at h'

/-- Claim C2, counterexample.  The sanitizer is not idempotent on every
input: on `"A(N)D"`, removing the parentheses manufactures a fresh
`AND` token (`sanitize "A(N)D" = "AND"`), which a second application
then deletes (`sanitize "AND" = ""`). -/
theorem sanitizeQuery_not_idempotent :
    ¬ (sanitizeQuery (sanitizeQuery "A(N)D") = sanitizeQuery "A(N)D") := by decide

/-- Claim C2 (amended).  `_sanitize_query` removes every parenthesis from
any input; on parenthesis-free inputs (in particular on every string of
its own image) it is idempotent and its output contains no `AND` token;
and `sanitize "(a) AND (b)" = "a b"`.  Unrestricted idempotence fails
(see the counterexample): paren removal can create a new `AND` token. -/
theorem sanitizeQuery_amended_spec :
    (∀ q : String, '(' ∉ (sanitizeQuery q).data ∧ ')' ∉ (sanitizeQuery q).data)
    ∧ (∀ q : String, '(' ∉ q.data → ')' ∉ q.data →
        sanitizeQuery (sanitizeQuery q) = sanitizeQuery q
          ∧ noAndScan [] (sanitizeQuery q).data = true)
    ∧ sanitizeQuery "(a) AND (b)" = "a b" :=
  ⟨sanitizeQuery_no_parens, sanitizeQuery_idem_core, by decide⟩

/-- Claim C2, witness.  The amended sanitizer theorem instantiated on
concrete queries. -/
theorem sanitizeQuery_amended_spec_witness :
    ('(' ∉ (sanitizeQuery "(a) AND (b)").data)
    ∧ sanitizeQuery (sanitizeQuery "x AND  y") = sanitizeQuery "x AND  y" :=
  ⟨(sanitizeQuery_amended_spec.1 "(a) AND (b)").1,
   (sanitizeQuery_amended_spec.2.1 "x AND  y" (by decide) (by decide)).1⟩

/-! ## Rate-limited fetch client (`_fetch_json`)

`_fetch_json` runs `for attempt in range(len(_429_BACKOFF_DELAYS) + 1)`:
each iteration performs one `session.get`.  A raised
`requests.RequestException` (including the `HTTPError` from
`raise_for_status`) and a raised `ValueError` from `resp.json()` are
caught and turn into `None`.  A 429 status sleeps for the next delay of
the schedule and retries, unless the schedule is exhausted, in which
case `None` is returned.  A non-JSON `Content-Type` returns `None`.

The network is modelled as an oracle giving the outcome of each
attempt; the returned list of naturals records the 429 backoff sleeps
actually performed, so the schedule itself is observable. -/

/-- Models `_429_BACKOFF_DELAYS = [5, 10, 20]`. -/
def backoffDelays : List Nat := [5, 10, 20]

/-- Outcome of one `session.get` attempt as seen by `_fetch_json`:
either the request raised a `requests.RequestException` (`exc`), or it
produced a response with a status code, a `Content-Type` header, and a
body whose JSON parse either succeeds (`some`) or raises `ValueError`
(`none`).  The library-level retry on 500/502/503/504 lives inside
`session.get` and is absorbed into the oracle. -/
structure FetchResp (α : Type) where
  exc : Bool
  status : Nat
  contentType : String
  json : Option α

/-- Models `"json" in content_type or "javascript" in content_type`. -/
def contentTypeOk (ct : String) : Bool :=
  decide ("json".data <:+: ct.data) || decide ("javascript".data <:+: ct.data)

/-- The retry loop of `_fetch_json` over the remaining attempt indices.
Returns the result (`None` on every failure path, the parsed JSON on
success) together with the list of 429 backoff sleeps performed. -/
def fetchJsonLoop {α : Type} (resps : Nat → FetchResp α) :
    List Nat → Option α × List Nat
  | [] => (none, [])
  | attempt :: rest =>
    let r := resps attempt
    if r.exc then (none, [])
    else if r.status = 429 then
      if attempt < backoffDelays.length then
        let next := fetchJsonLoop resps rest
        (next.1, backoffDelays.getD attempt 0 :: next.2)
      else (none, [])
    else if !contentTypeOk r.contentType then (none, [])
    else if 400 ≤ r.status ∧ r.status < 600 then (none, [])
    else
      match r.json with
      | some v => (some v, [])
      | none => (none, [])

/-- Models `_fetch_json`: up to `len(_429_BACKOFF_DELAYS) + 1` attempts. -/
def fetchJson {α : Type} (resps : Nat → FetchResp α) : Option α × List Nat :=
  fetchJsonLoop resps (List.range (backoffDelays.length + 1))

/-- Claim C7.  The fetch client never raises: it is a total function into
`Option`.  On persistent HTTP 429 it sleeps exactly the fixed schedule
5s, 10s, 20s and then returns absent; a network exception, a non-JSON
content type, an HTTP error status, and a JSON decode failure all
return absent; and on a successful JSON response it returns the parsed
value. -/
theorem fetchJson_spec {α : Type} (resps : Nat → FetchResp α) :
    ((∀ i, i < backoffDelays.length + 1 →
        (resps i).exc = false ∧ (resps i).status = 429) →
      fetchJson resps = (none, [5, 10, 20]))
    ∧ ((resps 0).exc = true → fetchJson resps = (none, []))
    ∧ ((resps 0).exc = false → (resps 0).status ≠ 429 →
        contentTypeOk (resps 0).contentType = false →
        fetchJson resps = (none, []))
    ∧ ((resps 0).exc = false → (resps 0).status ≠ 429 →
        contentTypeOk (resps 0).contentType = true →
        ¬(400 ≤ (resps 0).status ∧ (resps 0).status < 600) →
        fetchJson resps = ((resps 0).json, [])) := by
  have hrange : List.range (backoffDelays.length + 1) = [0, 1, 2, 3] := rfl
  refine ⟨?_, ?_, ?_, ?_⟩
  · intro h
    have h0 := h 0 (by decide)
    have h1 := h 1 (by decide)
    have h2 := h 2 (by decide)
    have h3 := h 3 (by decide)
    unfold fetchJson
    rw [hrange]
    simp [fetchJsonLoop, h0.1, h0.2, h1.1, h1.2, h2.1, h2.2, h3.1, h3.2,
      backoffDelays]
  · intro h
    unfold fetchJson
    rw [hrange]
    simp [fetchJsonLoop, h]
  · intro he hs hct
    unfold fetchJson
    rw [hrange]
    simp [fetchJsonLoop, he, hs, hct]
  · intro he hs hct hstat
    unfold fetchJson
    rw [hrange]
    cases hj : (resps 0).json with
    | none => simp [fetchJsonLoop, he, hs, hct, hstat, hj]
    | some v => simp [fetchJsonLoop, he, hs, hct, hstat, hj]

/-- Claim C7, witness.  The fetch client evaluated against a concrete
always-429 oracle and a concrete successful oracle. -/
theorem fetchJson_spec_witness :
    fetchJson (fun _ => (⟨false, 429, "application/json", none⟩ : FetchResp Nat))
      = (none, [5, 10, 20])
    ∧ fetchJson (fun _ => (⟨false, 200, "application/json", some 7⟩ : FetchResp Nat))
      = (some 7, []) :=
  ⟨(fetchJson_spec _).1 (fun i _ => ⟨rfl, rfl⟩),
   (fetchJson_spec
      (fun _ => (⟨false, 200, "application/json", some 7⟩ : FetchResp Nat))).2.2.2
     rfl (by decide) (by decide) (by decide)⟩

/-! ## Query plan data model (`QueryPlan`, `_parse_query_plan`)

Python dicts are modelled as association lists in insertion order with
`dictSet` as dict assignment (replace in place, else append). -/

/-- The `QueryPlan` dataclass. -/
structure QueryPlan where
  intent : String
  subreddits : List String
  sub_queries : List (String × List String)
  global_queries : List String
  mode : String
  source : String
deriving DecidableEq, Repr

/-- Models `QueryPlan.queries_for_sub`: the per-sub queries when present and
nonempty, else the global queries. -/
def QueryPlan.queries_for_sub (plan : QueryPlan) (sub : String) : List String :=
  match plan.sub_queries.lookup sub with
  | some qs => if qs.isEmpty then plan.global_queries else qs
  | none => plan.global_queries

/-- Python dict assignment `d[k] = v`: replace in place when the key is
present, otherwise append, preserving insertion order. -/
def dictSet {β : Type} : List (String × β) → String → β → List (String × β)
  | [], k, v => [(k, v)]
  | (k', v') :: rest, k, v =>
    if k' = k then (k', v) :: rest else (k', v') :: dictSet rest k v

/-- Models `global_queries[:2] if global_queries else [intent]`. -/
def guardVal (global_queries : List String) (intent : String) : List String :=
  if global_queries.isEmpty then [intent] else global_queries.take 2

/-- The empty-field guard loop of `_parse_query_plan`:
`for sub in subreddits: if sub not in sub_queries or not
sub_queries[sub]: sub_queries[sub] = global_queries[:2] if
global_queries else [intent]`. -/
def applyEmptyFieldGuard (global_queries : List String) (intent : String) :
    List String → List (String × List String) → List (String × List String)
  | [], sq => sq
  | sub :: rest, sq =>
    let sq' :=
      match sq.lookup sub with
      | some qs =>
        if qs.isEmpty then dictSet sq sub (guardVal global_queries intent)
        else sq
      | none => dictSet sq sub (guardVal global_queries intent)
    applyEmptyFieldGuard global_queries intent rest sq'

/-- The tail of `_parse_query_plan` from the `if not subreddits` check
onward, starting from the JSON fields already extracted from the LLM
text (the two-strategy JSON extraction itself is not modelled: the
claims are about the guard).  Returns `none` for a plan with no
subreddits, else the guarded plan with
`global_queries or [intent]` and `source="llm"`. -/
def parseQueryPlanCore (subreddits : List String)
    (sub_queries : List (String × List String))
    (global_queries : List String) (intent mode : String) : Option QueryPlan :=
  if subreddits.isEmpty then none
  else
    some
      { intent := intent
        subreddits := subreddits
        sub_queries := applyEmptyFieldGuard global_queries intent subreddits sub_queries
        global_queries := if global_queries.isEmpty then [intent] else global_queries
        mode := mode
        source := "llm" }

/-! ## Fan-out search engine (`_fan_out_search`)

The engine's effects are modelled by two oracles:
* `search : Option String → String → Nat → List Post` abstracts
  `_search_posts(session, sanitized_query, sort, subreddit, limit)`
  (pagination and within-call dedup live behind it);
* `tout : Nat → Bool` abstracts `time.monotonic() > deadline`: the
  value of the `n`-th `_timed_out()` check performed.

The state carries the function's locals, the `search_metadata` entries
it mutates, and a ghost trace `queryLog` of every search actually
issued, as (scope, raw pre-sanitization query) pairs. -/

/-- One search result as the engine sees it: only the stable `id` is
inspected (for dedup); the other fields ride along. -/
structure Post where
  id : String
  subreddit : String
  title : String
deriving DecidableEq, Repr

/-- State threaded through `_fan_out_search`. -/
structure FanState where
  allPosts : List Post
  seenIds : List String
  yieldingSubs : List String
  queriesExecuted : Nat
  quoteRetries : Nat
  checks : Nat
  queryLog : List (Option String × String)
  subreddits_searched : Nat
  subreddits_yielded : Nat
  posts_before_dedup : Nat
  posts_after_dedup : Nat
  total_queries_executed : Nat
  global_fallback_triggered : Bool
  warnings : List String
deriving Repr

/-- Initial state: empty locals, metadata as initialized by
`fetch_posts_noapi`. -/
def initFanState : FanState :=
  { allPosts := [], seenIds := [], yieldingSubs := [], queriesExecuted := 0,
    quoteRetries := 0, checks := 0, queryLog := [],
    subreddits_searched := 0, subreddits_yielded := 0, posts_before_dedup := 0,
    posts_after_dedup := 0, total_queries_executed := 0,
    global_fallback_triggered := false, warnings := [] }

/-- One `_timed_out()` call: sample the deadline oracle at the current
check index and advance it. -/
def timedOutStep (tout : Nat → Bool) (s : FanState) : Bool × FanState :=
  (tout s.checks, { s with checks := s.checks + 1 })

/-- Models `'"' in q`. -/
def hasQuote (q : String) : Bool := q.data.contains '"'

/-- Models `q.replace('"', '')`. -/
def stripQuotes (q : String) : String := ⟨q.data.filter (fun c => !(c == '"'))⟩

/-- Models `_run_query`: sanitize; empty sanitized queries are dropped without
searching; otherwise count the query, record it in the trace, and
search. -/
def runQuery (search : Option String → String → Nat → List Post)
    (s : FanState) (sub : Option String) (q : String) (lim : Nat) :
    List Post × FanState :=
  let sanitized := sanitizeQuery q
  if sanitized = "" then ([], s)
  else
    (search sub sanitized lim,
     { s with queriesExecuted := s.queriesExecuted + 1,
              queryLog := s.queryLog ++ [(sub, q)] })

/-- Models `_collect`: append posts whose id has not been seen, in order;
returns the number of newly added posts. -/
def collect (s : FanState) : List Post → Nat × FanState
  | [] => (0, s)
  | p :: ps =>
    if p.id ∈ s.seenIds then collect s ps
    else
      let out := collect
        { s with seenIds := p.id :: s.seenIds, allPosts := s.allPosts ++ [p] } ps
      (out.1 + 1, out.2)

/-- The quote-fallback block shared by Phase 1 and Phase 2 (D5): run
the query; if it returned nothing and the raw query contains a double
quote, retry exactly once with all quotes stripped, counting one quote
retry. -/
def runQueryWithQuoteFallback (search : Option String → String → Nat → List Post)
    (s : FanState) (sub : String) (q : String) (lim : Nat) :
    List Post × FanState :=
  let out := runQuery search s (some sub) q lim
  if out.1.isEmpty && hasQuote q then
    let out2 := runQuery search out.2 (some sub) (stripQuotes q) lim
    (out2.1, { out2.2 with quoteRetries := out2.2.quoteRetries + 1 })
  else out

/-- Body of one Phase 1 iteration after the deadline check: run the
first query with quote fallback, collect, and mark the sub yielding
when it contributed a new post. -/
def phase1Body (search : Option String → String → Nat → List Post)
    (s : FanState) (sub firstQ : String) (lim : Nat) : FanState :=
  let out := runQueryWithQuoteFallback search s sub firstQ lim
  let c := collect out.2 out.1
  if 0 < c.1 then { c.2 with yieldingSubs := c.2.yieldingSubs ++ [sub] }
  else c.2

/-- Phase 1 (breadth): for every sub in plan order, check the deadline
(break with a warning on expiry) and run its body.  Subs with no
queries are skipped. -/
def phase1 (search : Option String → String → Nat → List Post)
    (tout : Nat → Bool) (plan : QueryPlan) (lim : Nat) :
    List String → FanState → FanState
  | [], s => s
  | sub :: rest, s =>
    let t := timedOutStep tout s
    if t.1 then
      { t.2 with warnings := t.2.warnings ++ ["Pipeline timeout during Phase 1 breadth"] }
    else
      match plan.queries_for_sub sub with
      | [] => phase1 search tout plan lim rest t.2
      | firstQ :: _ => phase1 search tout plan lim rest (phase1Body search t.2 sub firstQ lim)

/-- Body of one Phase 2 query: quote-fallback run plus collect. -/
def phase2Body (search : Option String → String → Nat → List Post)
    (s : FanState) (sub q : String) (lim : Nat) : FanState :=
  let out := runQueryWithQuoteFallback search s sub q lim
  (collect out.2 out.1).2

/-- Phase 2 inner loop: the remaining queries (`queries[1:]`) of one
yielding sub; stop on cap or deadline (short-circuit: the deadline is
only sampled while below the cap). -/
def phase2Queries (search : Option String → String → Nat → List Post)
    (tout : Nat → Bool) (lim cap : Nat) (sub : String) :
    List String → FanState → FanState
  | [], s => s
  | q :: rest, s =>
    if cap ≤ s.allPosts.length then s
    else
      let t := timedOutStep tout s
      if t.1 then t.2
      else phase2Queries search tout lim cap sub rest (phase2Body search t.2 sub q lim)

/-- Phase 2 outer loop over the yielding subs. -/
def phase2Subs (search : Option String → String → Nat → List Post)
    (tout : Nat → Bool) (plan : QueryPlan) (lim cap : Nat) :
    List String → FanState → FanState
  | [], s => s
  | sub :: rest, s =>
    if cap ≤ s.allPosts.length then s
    else
      let t := timedOutStep tout s
      if t.1 then t.2
      else
        let s' := phase2Queries search tout lim cap sub
          ((plan.queries_for_sub sub).drop 1) t.2
        phase2Subs search tout plan lim cap rest s'

/-- Phase 2 (depth): only entered below the cap and with at least one
yielding sub. -/
def phase2 (search : Option String → String → Nat → List Post)
    (tout : Nat → Bool) (plan : QueryPlan) (lim cap : Nat) (s : FanState) :
    FanState :=
  if s.allPosts.length < cap ∧ s.yieldingSubs ≠ [] then
    phase2Subs search tout plan lim cap s.yieldingSubs s
  else s

/-- Body of one global-fallback query: unscoped run requesting the
remaining headroom `post_limit - len(all_posts)`, plus collect. -/
def globalBody (search : Option String → String → Nat → List Post)
    (s : FanState) (gq : String) (cap : Nat) : FanState :=
  let out := runQuery search s none gq (cap - s.allPosts.length)
  (collect out.2 out.1).2

/-- Global fallback loop over `plan.global_queries`, unscoped
(`subreddit=None`). -/
def globalQueriesLoop (search : Option String → String → Nat → List Post)
    (tout : Nat → Bool) (cap : Nat) : List String → FanState → FanState
  | [], s => s
  | gq :: rest, s =>
    if cap ≤ s.allPosts.length then s
    else
      let t := timedOutStep tout s
      if t.1 then t.2
      else globalQueriesLoop search tout cap rest (globalBody search t.2 gq cap)

/-- The global-fallback step: `if len(all_posts) < max(5, post_limit
// 4) and not _timed_out():` set the metadata flag and run the global
queries. -/
def globalFallbackStep (search : Option String → String → Nat → List Post)
    (tout : Nat → Bool) (plan : QueryPlan) (cap : Nat) (s : FanState) :
    FanState :=
  if s.allPosts.length < max 5 (cap / 4) then
    let t := timedOutStep tout s
    if t.1 then t.2
    else
      globalQueriesLoop search tout cap plan.global_queries
        { t.2 with global_fallback_triggered := true }
  else s

/-- Models `per_query_limit = max(2, min(5, post_limit // max(num_subs, 1)))`. -/
def perQueryLimit (postLimit numSubs : Nat) : Nat :=
  max 2 (min 5 (postLimit / max numSubs 1))

/-- State after Phase 1 plus the metadata writes that follow it. -/
def afterPhase1 (search : Option String → String → Nat → List Post)
    (tout : Nat → Bool) (plan : QueryPlan) (cap : Nat) : FanState :=
  let s := phase1 search tout plan (perQueryLimit cap plan.subreddits.length)
    plan.subreddits initFanState
  { s with subreddits_searched := plan.subreddits.length,
           subreddits_yielded := s.yieldingSubs.length }

/-- State after Phase 2 plus the metadata writes that follow it. -/
def afterPhase2 (search : Option String → String → Nat → List Post)
    (tout : Nat → Bool) (plan : QueryPlan) (cap : Nat) : FanState :=
  let s := phase2 search tout plan (perQueryLimit cap plan.subreddits.length)
    cap (afterPhase1 search tout plan cap)
  { s with posts_before_dedup := s.queriesExecuted,
           posts_after_dedup := s.allPosts.length,
           total_queries_executed := s.queriesExecuted }

/-- Models `_fan_out_search`: Phase 1, Phase 2, global fallback, and the final
truncation `all_posts[:post_limit]`. -/
def fanOutSearch (search : Option String → String → Nat → List Post)
    (tout : Nat → Bool) (plan : QueryPlan) (cap : Nat) :
    List Post × FanState :=
  let s := globalFallbackStep search tout plan cap (afterPhase2 search tout plan cap)
  (s.allPosts.take cap, s)

/-! ## Engine invariants and frame lemmas -/

/-- Dedup invariant: the seen-id set is exactly the ids of the
collected posts, and those ids are pairwise distinct. -/
def DedupInv (s : FanState) : Prop :=
  (∀ x, x ∈ s.seenIds ↔ x ∈ s.allPosts.map Post.id)
    ∧ (s.allPosts.map Post.id).Nodup

theorem dedupInv_init : DedupInv initFanState := by
  constructor
  · intro x; simp [initFanState]
  · simp [initFanState]

/-- The predicate `DedupInv` only looks at `allPosts` and `seenIds`. -/
theorem DedupInv.congr {s s' : FanState} (hA : s'.allPosts = s.allPosts)
    (hS : s'.seenIds = s.seenIds) (h : DedupInv s) : DedupInv s' := by
  rw [DedupInv, hA, hS]; exact h

/-- Specification-side dedup: keep the first occurrence of every id not
already seen, in input order. -/
def specDedup (seen : List String) : List Post → List Post
  | [] => []
  | p :: ps =>
    if p.id ∈ seen then specDedup seen ps
    else p :: specDedup (p.id :: seen) ps

/-- The collector `_collect` is exactly the first-occurrence filter `specDedup`:
it appends the first-seen posts in input order and reports their
number. -/
theorem collect_eq_specDedup :
    ∀ (ps : List Post) (s : FanState),
      (collect s ps).2.allPosts = s.allPosts ++ specDedup s.seenIds ps
        ∧ (collect s ps).1 = (specDedup s.seenIds ps).length := by
  intro ps
  induction ps with
  | nil => intro s; simp [collect, specDedup]
  | cons p ps ih =>
    intro s
    by_cases hp : p.id ∈ s.seenIds
    · simpa [collect, specDedup, hp] using ih s
    · have h := ih { s with seenIds := p.id :: s.seenIds, allPosts := s.allPosts ++ [p] }
      simp only [collect, specDedup, hp, if_false, if_neg hp]
      constructor
      · rw [h.1]; simp
      · rw [h.2]; simp

/-- Frame lemma for `_collect`: it touches only `allPosts`/`seenIds`
(appending), and it preserves the dedup invariant. -/
theorem collect_frame :
    ∀ (ps : List Post) (s : FanState),
      (collect s ps).2.yieldingSubs = s.yieldingSubs
      ∧ (collect s ps).2.queriesExecuted = s.queriesExecuted
      ∧ (collect s ps).2.quoteRetries = s.quoteRetries
      ∧ (collect s ps).2.checks = s.checks
      ∧ (collect s ps).2.queryLog = s.queryLog
      ∧ (collect s ps).2.global_fallback_triggered = s.global_fallback_triggered
      ∧ (collect s ps).2.warnings = s.warnings
      ∧ (DedupInv s → DedupInv (collect s ps).2) := by
  intro ps
  induction ps with
  | nil => intro s; exact ⟨rfl, rfl, rfl, rfl, rfl, rfl, rfl, id⟩
  | cons p ps ih =>
    intro s
    by_cases hp : p.id ∈ s.seenIds
    · simpa [collect, hp] using ih s
    · have h := ih { s with seenIds := p.id :: s.seenIds, allPosts := s.allPosts ++ [p] }
      simp only [collect, hp, if_false, if_neg hp]
      refine ⟨h.1, h.2.1, h.2.2.1, h.2.2.2.1, h.2.2.2.2.1, h.2.2.2.2.2.1,
        h.2.2.2.2.2.2.1, ?_⟩
      intro hinv
      refine h.2.2.2.2.2.2.2 ?_
      obtain ⟨hmem, hnd⟩ := hinv
      have hpid : p.id ∉ s.allPosts.map Post.id := fun hc => hp ((hmem p.id).2 hc)
      constructor
      · intro x
        simp only [List.mem_cons, List.map_append, List.mem_append,
          List.map_cons, List.map_nil, List.mem_singleton]
        rw [hmem x]
        tauto
      · simp only [List.map_append, List.map_cons, List.map_nil]
        refine List.Nodup.append hnd (by simp) ?_
        intro a ha hb
        simp only [List.mem_singleton] at hb
        subst hb
        exact hpid ha

/-- Models `_run_query` on a query that sanitizes to the empty string: no
search, no state change. -/
theorem runQuery_eq_of_empty {q : String} (hq : sanitizeQuery q = "")
    {search : Option String → String → Nat → List Post} {s : FanState}
    {sub : Option String} {lim : Nat} :
    runQuery search s sub q lim = ([], s) := by
  unfold runQuery
  simp [hq]

/-- Models `_run_query` on a query with nonempty sanitization: search, count,
trace.  The remaining arguments are explicit so that instances can be
pinned positionally. -/
theorem runQuery_eq_of_ne {q : String} (hq : ¬ sanitizeQuery q = "")
    (search : Option String → String → Nat → List Post) (s : FanState)
    (sub : Option String) (lim : Nat) :
    runQuery search s sub q lim =
      (search sub (sanitizeQuery q) lim,
       { s with queriesExecuted := s.queriesExecuted + 1,
                queryLog := s.queryLog ++ [(sub, q)] }) := by
  unfold runQuery
  simp [hq]

/-- Frame lemma for `_run_query`: only the query counter and the trace
change; the trace grows by at most the one entry `(sub, q)`. -/
theorem runQuery_frame (search : Option String → String → Nat → List Post)
    (s : FanState) (sub : Option String) (q : String) (lim : Nat) :
    (runQuery search s sub q lim).2.allPosts = s.allPosts
    ∧ (runQuery search s sub q lim).2.seenIds = s.seenIds
    ∧ (runQuery search s sub q lim).2.yieldingSubs = s.yieldingSubs
    ∧ (runQuery search s sub q lim).2.quoteRetries = s.quoteRetries
    ∧ (runQuery search s sub q lim).2.checks = s.checks
    ∧ (runQuery search s sub q lim).2.global_fallback_triggered
        = s.global_fallback_triggered
    ∧ (runQuery search s sub q lim).2.warnings = s.warnings
    ∧ (∃ Δ, (runQuery search s sub q lim).2.queryLog = s.queryLog ++ Δ
        ∧ ∀ e ∈ Δ, e = (sub, q)) := by
  by_cases hq : sanitizeQuery q = ""
  · rw [runQuery_eq_of_empty hq]
    exact ⟨rfl, rfl, rfl, rfl, rfl, rfl, rfl, [], by simp, by simp⟩
  · rw [runQuery_eq_of_ne hq]
    exact ⟨rfl, rfl, rfl, rfl, rfl, rfl, rfl, [(sub, q)], rfl, by simp⟩

/-- Frame lemma for the quote-fallback block: posts/ids/yield
marks/checks/flag/warnings unchanged; trace entries are the raw query
or its quote-stripped form. -/
theorem runQueryWithQuoteFallback_frame
    (search : Option String → String → Nat → List Post)
    (s : FanState) (sub : String) (q : String) (lim : Nat) :
    (runQueryWithQuoteFallback search s sub q lim).2.allPosts = s.allPosts
    ∧ (runQueryWithQuoteFallback search s sub q lim).2.seenIds = s.seenIds
    ∧ (runQueryWithQuoteFallback search s sub q lim).2.yieldingSubs = s.yieldingSubs
    ∧ (runQueryWithQuoteFallback search s sub q lim).2.checks = s.checks
    ∧ (runQueryWithQuoteFallback search s sub q lim).2.global_fallback_triggered
        = s.global_fallback_triggered
    ∧ (runQueryWithQuoteFallback search s sub q lim).2.warnings = s.warnings
    ∧ (∃ Δ, (runQueryWithQuoteFallback search s sub q lim).2.queryLog
          = s.queryLog ++ Δ
        ∧ ∀ e ∈ Δ, e = (some sub, q) ∨ e = (some sub, stripQuotes q)) := by
  unfold runQueryWithQuoteFallback
  have h1 := runQuery_frame search s (some sub) q lim
  obtain ⟨Δ₁, hΔ₁, hΔ₁e⟩ := h1.2.2.2.2.2.2.2
  by_cases hb : ((runQuery search s (some sub) q lim).1.isEmpty
      && hasQuote q) = true
  · simp only [hb, if_true]
    have h2 := runQuery_frame search (runQuery search s (some sub) q lim).2
      (some sub) (stripQuotes q) lim
    obtain ⟨Δ₂, hΔ₂, hΔ₂e⟩ := h2.2.2.2.2.2.2.2
    refine ⟨by rw [h2.1, h1.1], by rw [h2.2.1, h1.2.1],
      by rw [h2.2.2.1, h1.2.2.1], by rw [h2.2.2.2.2.1, h1.2.2.2.2.1],
      by rw [h2.2.2.2.2.2.1]; exact h1.2.2.2.2.2.1,
      by rw [h2.2.2.2.2.2.2.1]; exact h1.2.2.2.2.2.2.1,
      Δ₁ ++ Δ₂, ?_, ?_⟩
    · rw [hΔ₂, hΔ₁, List.append_assoc]
    · intro e he
      rcases List.mem_append.1 he with he | he
      · exact Or.inl (hΔ₁e e he)
      · exact Or.inr (hΔ₂e e he)
  · simp only [hb, if_false]
    exact ⟨h1.1, h1.2.1, h1.2.2.1, h1.2.2.2.2.1, h1.2.2.2.2.2.1,
      h1.2.2.2.2.2.2.1, Δ₁, hΔ₁, fun e he => Or.inl (hΔ₁e e he)⟩

/-- Frame lemma for one Phase 1 body. -/
theorem phase1Body_frame (search : Option String → String → Nat → List Post)
    (s : FanState) (sub firstQ : String) (lim : Nat) :
    (phase1Body search s sub firstQ lim).global_fallback_triggered
        = s.global_fallback_triggered
    ∧ (DedupInv s → DedupInv (phase1Body search s sub firstQ lim)) := by
  unfold phase1Body
  have hrq := runQueryWithQuoteFallback_frame search s sub firstQ lim
  have hco := collect_frame (runQueryWithQuoteFallback search s sub firstQ lim).1
    (runQueryWithQuoteFallback search s sub firstQ lim).2
  by_cases hy : 0 < (collect (runQueryWithQuoteFallback search s sub firstQ lim).2
      (runQueryWithQuoteFallback search s sub firstQ lim).1).1
  · simp only [hy, if_true]
    exact ⟨hco.2.2.2.2.2.1.trans hrq.2.2.2.2.1,
      fun hinv => DedupInv.congr rfl rfl
        (hco.2.2.2.2.2.2.2 (DedupInv.congr hrq.1 hrq.2.1 hinv))⟩
  · simp only [hy, if_false]
    exact ⟨hco.2.2.2.2.2.1.trans hrq.2.2.2.2.1,
      fun hinv => hco.2.2.2.2.2.2.2 (DedupInv.congr hrq.1 hrq.2.1 hinv)⟩

/-- Frame lemma for one Phase 2 body, including the trace entries it
can add. -/
theorem phase2Body_frame (search : Option String → String → Nat → List Post)
    (s : FanState) (sub q : String) (lim : Nat) :
    (phase2Body search s sub q lim).global_fallback_triggered
        = s.global_fallback_triggered
    ∧ (DedupInv s → DedupInv (phase2Body search s sub q lim))
    ∧ (∃ Δ, (phase2Body search s sub q lim).queryLog = s.queryLog ++ Δ
        ∧ ∀ e ∈ Δ, e = (some sub, q) ∨ e = (some sub, stripQuotes q)) := by
  unfold phase2Body
  have hrq := runQueryWithQuoteFallback_frame search s sub q lim
  have hco := collect_frame (runQueryWithQuoteFallback search s sub q lim).1
    (runQueryWithQuoteFallback search s sub q lim).2
  obtain ⟨Δ, hΔ, hΔe⟩ := hrq.2.2.2.2.2.2
  exact ⟨hco.2.2.2.2.2.1.trans hrq.2.2.2.2.1,
    fun hinv => hco.2.2.2.2.2.2.2 (DedupInv.congr hrq.1 hrq.2.1 hinv),
    Δ, hco.2.2.2.2.1.trans hΔ, hΔe⟩

/-- Frame lemma for one global-fallback body. -/
theorem globalBody_frame (search : Option String → String → Nat → List Post)
    (s : FanState) (gq : String) (cap : Nat) :
    (globalBody search s gq cap).global_fallback_triggered
        = s.global_fallback_triggered
    ∧ (DedupInv s → DedupInv (globalBody search s gq cap))
    ∧ (∃ Δ, (globalBody search s gq cap).queryLog = s.queryLog ++ Δ
        ∧ ∀ e ∈ Δ, e = ((none : Option String), gq)) := by
  unfold globalBody
  have hrq := runQuery_frame search s none gq (cap - s.allPosts.length)
  have hco := collect_frame (runQuery search s none gq (cap - s.allPosts.length)).1
    (runQuery search s none gq (cap - s.allPosts.length)).2
  obtain ⟨Δ, hΔ, hΔe⟩ := hrq.2.2.2.2.2.2.2
  exact ⟨hco.2.2.2.2.2.1.trans hrq.2.2.2.2.2.1,
    fun hinv => hco.2.2.2.2.2.2.2 (DedupInv.congr hrq.1 hrq.2.1 hinv),
    Δ, hco.2.2.2.2.1.trans hΔ, hΔe⟩

/-! Branch equations for the loops, used both by the frame lemmas and
by the concrete claim proofs. -/

theorem phase1_cons_tout {search tout plan lim sub rest s}
    (ht : tout s.checks = true) :
    phase1 search tout plan lim (sub :: rest) s =
      { s with checks := s.checks + 1,
               warnings := s.warnings
                 ++ ["Pipeline timeout during Phase 1 breadth"] } := by
  simp [phase1, timedOutStep, ht]

theorem phase1_cons_noq {search tout plan lim sub rest s}
    (ht : tout s.checks = false) (hq : plan.queries_for_sub sub = []) :
    phase1 search tout plan lim (sub :: rest) s =
      phase1 search tout plan lim rest { s with checks := s.checks + 1 } := by
  simp [phase1, timedOutStep, ht, hq]

theorem phase1_cons_run {search tout plan lim sub rest s firstQ qs}
    (ht : tout s.checks = false)
    (hq : plan.queries_for_sub sub = firstQ :: qs) :
    phase1 search tout plan lim (sub :: rest) s =
      phase1 search tout plan lim rest
        (phase1Body search { s with checks := s.checks + 1 } sub firstQ lim) := by
  simp [phase1, timedOutStep, ht, hq]

theorem phase2Queries_cons_cap {search tout lim cap sub q rest s}
    (hcap : cap ≤ s.allPosts.length) :
    phase2Queries search tout lim cap sub (q :: rest) s = s := by
  simp [phase2Queries, hcap]

theorem phase2Queries_cons_tout {search tout lim cap sub q rest s}
    (hcap : ¬ cap ≤ s.allPosts.length) (ht : tout s.checks = true) :
    phase2Queries search tout lim cap sub (q :: rest) s =
      { s with checks := s.checks + 1 } := by
  simp [phase2Queries, timedOutStep, hcap, ht]

theorem phase2Queries_cons_run {search tout lim cap sub q rest s}
    (hcap : ¬ cap ≤ s.allPosts.length) (ht : tout s.checks = false) :
    phase2Queries search tout lim cap sub (q :: rest) s =
      phase2Queries search tout lim cap sub rest
        (phase2Body search { s with checks := s.checks + 1 } sub q lim) := by
  simp [phase2Queries, timedOutStep, hcap, ht]

theorem phase2Subs_cons_cap {search tout plan lim cap sub rest s}
    (hcap : cap ≤ s.allPosts.length) :
    phase2Subs search tout plan lim cap (sub :: rest) s = s := by
  simp [phase2Subs, hcap]

theorem phase2Subs_cons_tout {search tout plan lim cap sub rest s}
    (hcap : ¬ cap ≤ s.allPosts.length) (ht : tout s.checks = true) :
    phase2Subs search tout plan lim cap (sub :: rest) s =
      { s with checks := s.checks + 1 } := by
  simp [phase2Subs, timedOutStep, hcap, ht]

theorem phase2Subs_cons_run {search tout plan lim cap sub rest s}
    (hcap : ¬ cap ≤ s.allPosts.length) (ht : tout s.checks = false) :
    phase2Subs search tout plan lim cap (sub :: rest) s =
      phase2Subs search tout plan lim cap rest
        (phase2Queries search tout lim cap sub
          ((plan.queries_for_sub sub).drop 1) { s with checks := s.checks + 1 }) := by
  simp [phase2Subs, timedOutStep, hcap, ht]

theorem globalQueriesLoop_cons_cap {search tout cap gq rest s}
    (hcap : cap ≤ s.allPosts.length) :
    globalQueriesLoop search tout cap (gq :: rest) s = s := by
  simp [globalQueriesLoop, hcap]

theorem globalQueriesLoop_cons_tout {search tout cap gq rest s}
    (hcap : ¬ cap ≤ s.allPosts.length) (ht : tout s.checks = true) :
    globalQueriesLoop search tout cap (gq :: rest) s =
      { s with checks := s.checks + 1 } := by
  simp [globalQueriesLoop, timedOutStep, hcap, ht]

theorem globalQueriesLoop_cons_run {search tout cap gq rest s}
    (hcap : ¬ cap ≤ s.allPosts.length) (ht : tout s.checks = false) :
    globalQueriesLoop search tout cap (gq :: rest) s =
      globalQueriesLoop search tout cap rest
        (globalBody search { s with checks := s.checks + 1 } gq cap) := by
  simp [globalQueriesLoop, timedOutStep, hcap, ht]

/-- Frame lemma for Phase 1: the fallback flag is untouched and the
dedup invariant is preserved. -/
theorem phase1_frame (search : Option String → String → Nat → List Post)
    (tout : Nat → Bool) (plan : QueryPlan) (lim : Nat) :
    ∀ (subs : List String) (s : FanState),
      (phase1 search tout plan lim subs s).global_fallback_triggered
          = s.global_fallback_triggered
      ∧ (DedupInv s → DedupInv (phase1 search tout plan lim subs s)) := by
  intro subs
  induction subs with
  | nil => intro s; exact ⟨rfl, id⟩
  | cons sub rest ih =>
    intro s
    by_cases ht : tout s.checks
    · rw [phase1_cons_tout ht]
      exact ⟨rfl, fun h => DedupInv.congr rfl rfl h⟩
    · have ht' : tout s.checks = false := by simpa using ht
      cases hq : plan.queries_for_sub sub with
      | nil =>
        rw [phase1_cons_noq ht' hq]
        have h := ih { s with checks := s.checks + 1 }
        exact ⟨h.1, fun hinv => h.2 (DedupInv.congr rfl rfl hinv)⟩
      | cons firstQ qs =>
        rw [phase1_cons_run ht' hq]
        have hb := phase1Body_frame search { s with checks := s.checks + 1 } sub firstQ lim
        have h := ih (phase1Body search { s with checks := s.checks + 1 } sub firstQ lim)
        exact ⟨h.1.trans hb.1,
          fun hinv => h.2 (hb.2 (DedupInv.congr rfl rfl hinv))⟩

/-- Frame lemma for the Phase 2 inner loop: flag untouched, invariant
preserved, and every trace entry added names this sub and one of the
listed queries (raw or quote-stripped). -/
theorem phase2Queries_frame (search : Option String → String → Nat → List Post)
    (tout : Nat → Bool) (lim cap : Nat) (sub : String) :
    ∀ (qs : List String) (s : FanState),
      (phase2Queries search tout lim cap sub qs s).global_fallback_triggered
          = s.global_fallback_triggered
      ∧ (DedupInv s → DedupInv (phase2Queries search tout lim cap sub qs s))
      ∧ (∃ Δ, (phase2Queries search tout lim cap sub qs s).queryLog
            = s.queryLog ++ Δ
          ∧ ∀ e ∈ Δ, ∃ q0 ∈ qs,
              e = (some sub, q0) ∨ e = (some sub, stripQuotes q0)) := by
  intro qs
  induction qs with
  | nil => intro s; exact ⟨rfl, id, [], by simp [phase2Queries], by simp⟩
  | cons q rest ih =>
    intro s
    by_cases hcap : cap ≤ s.allPosts.length
    · rw [phase2Queries_cons_cap hcap]
      exact ⟨rfl, id, [], by simp, by simp⟩
    · by_cases ht : tout s.checks
      · rw [phase2Queries_cons_tout hcap ht]
        exact ⟨rfl, fun h => DedupInv.congr rfl rfl h, [], by simp, by simp⟩
      · have ht' : tout s.checks = false := by simpa using ht
        rw [phase2Queries_cons_run hcap ht']
        have hb := phase2Body_frame search { s with checks := s.checks + 1 } sub q lim
        have h := ih (phase2Body search { s with checks := s.checks + 1 } sub q lim)
        obtain ⟨Δb, hΔb, hΔbe⟩ := hb.2.2
        obtain ⟨Δr, hΔr, hΔre⟩ := h.2.2
        refine ⟨h.1.trans hb.1,
          fun hinv => h.2.1 (hb.2.1 (DedupInv.congr rfl rfl hinv)),
          Δb ++ Δr, ?_, ?_⟩
        · rw [hΔr, hΔb, List.append_assoc]
        · intro e he
          rcases List.mem_append.1 he with he | he
          · exact ⟨q, by simp, hΔbe e he⟩
          · obtain ⟨q0, hq0, hq0e⟩ := hΔre e he
            exact ⟨q0, by simp [hq0], hq0e⟩

/-- Frame lemma for the Phase 2 outer loop: every trace entry added
names one of the given subs and one of its queries after the first. -/
theorem phase2Subs_frame (search : Option String → String → Nat → List Post)
    (tout : Nat → Bool) (plan : QueryPlan) (lim cap : Nat) :
    ∀ (subs : List String) (s : FanState),
      (phase2Subs search tout plan lim cap subs s).global_fallback_triggered
          = s.global_fallback_triggered
      ∧ (DedupInv s → DedupInv (phase2Subs search tout plan lim cap subs s))
      ∧ (∃ Δ, (phase2Subs search tout plan lim cap subs s).queryLog
            = s.queryLog ++ Δ
          ∧ ∀ e ∈ Δ, ∃ sub ∈ subs, ∃ q0 ∈ (plan.queries_for_sub sub).drop 1,
              e = (some sub, q0) ∨ e = (some sub, stripQuotes q0)) := by
  intro subs
  induction subs with
  | nil => intro s; exact ⟨rfl, id, [], by simp [phase2Subs], by simp⟩
  | cons sub rest ih =>
    intro s
    by_cases hcap : cap ≤ s.allPosts.length
    · rw [phase2Subs_cons_cap hcap]
      exact ⟨rfl, id, [], by simp, by simp⟩
    · by_cases ht : tout s.checks
      · rw [phase2Subs_cons_tout hcap ht]
        exact ⟨rfl, fun h => DedupInv.congr rfl rfl h, [], by simp, by simp⟩
      · have ht' : tout s.checks = false := by simpa using ht
        rw [phase2Subs_cons_run hcap ht']
        have hq := phase2Queries_frame search tout lim cap sub
          ((plan.queries_for_sub sub).drop 1) { s with checks := s.checks + 1 }
        have h := ih (phase2Queries search tout lim cap sub
          ((plan.queries_for_sub sub).drop 1) { s with checks := s.checks + 1 })
        obtain ⟨Δq, hΔq, hΔqe⟩ := hq.2.2
        obtain ⟨Δr, hΔr, hΔre⟩ := h.2.2
        refine ⟨h.1.trans hq.1,
          fun hinv => h.2.1 (hq.2.1 (DedupInv.congr rfl rfl hinv)),
          Δq ++ Δr, ?_, ?_⟩
        · rw [hΔr, hΔq, List.append_assoc]
        · intro e he
          rcases List.mem_append.1 he with he | he
          · obtain ⟨q0, hq0, hq0e⟩ := hΔqe e he
            exact ⟨sub, by simp, q0, hq0, hq0e⟩
          · obtain ⟨sub', hsub', q0, hq0, hq0e⟩ := hΔre e he
            exact ⟨sub', by simp [hsub'], q0, hq0, hq0e⟩

/-- Frame lemma for `phase2` including its entry guard. -/
theorem phase2_frame (search : Option String → String → Nat → List Post)
    (tout : Nat → Bool) (plan : QueryPlan) (lim cap : Nat) (s : FanState) :
    (phase2 search tout plan lim cap s).global_fallback_triggered
        = s.global_fallback_triggered
    ∧ (DedupInv s → DedupInv (phase2 search tout plan lim cap s))
    ∧ (∃ Δ, (phase2 search tout plan lim cap s).queryLog = s.queryLog ++ Δ
        ∧ ∀ e ∈ Δ, ∃ sub ∈ s.yieldingSubs,
            ∃ q0 ∈ (plan.queries_for_sub sub).drop 1,
              e = (some sub, q0) ∨ e = (some sub, stripQuotes q0))
    ∧ (cap ≤ s.allPosts.length → phase2 search tout plan lim cap s = s) := by
  unfold phase2
  by_cases hg : s.allPosts.length < cap ∧ s.yieldingSubs ≠ []
  · rw [if_pos hg]
    have h := phase2Subs_frame search tout plan lim cap s.yieldingSubs s
    exact ⟨h.1, h.2.1, h.2.2, fun hcap => absurd hg.1 (by omega)⟩
  · rw [if_neg hg]
    exact ⟨rfl, id, ⟨[], by simp, by simp⟩, fun _ => rfl⟩

/-- Frame lemma for the global-queries loop: flag untouched, invariant
preserved, all trace entries are unscoped global queries. -/
theorem globalQueriesLoop_frame (search : Option String → String → Nat → List Post)
    (tout : Nat → Bool) (cap : Nat) :
    ∀ (gqs : List String) (s : FanState),
      (globalQueriesLoop search tout cap gqs s).global_fallback_triggered
          = s.global_fallback_triggered
      ∧ (DedupInv s → DedupInv (globalQueriesLoop search tout cap gqs s))
      ∧ (∃ Δ, (globalQueriesLoop search tout cap gqs s).queryLog
            = s.queryLog ++ Δ
          ∧ ∀ e ∈ Δ, e.1 = none ∧ e.2 ∈ gqs) := by
  intro gqs
  induction gqs with
  | nil => intro s; exact ⟨rfl, id, [], by simp [globalQueriesLoop], by simp⟩
  | cons gq rest ih =>
    intro s
    by_cases hcap : cap ≤ s.allPosts.length
    · rw [globalQueriesLoop_cons_cap hcap]
      exact ⟨rfl, id, [], by simp, by simp⟩
    · by_cases ht : tout s.checks
      · rw [globalQueriesLoop_cons_tout hcap ht]
        exact ⟨rfl, fun h => DedupInv.congr rfl rfl h, [], by simp, by simp⟩
      · have ht' : tout s.checks = false := by simpa using ht
        rw [globalQueriesLoop_cons_run hcap ht']
        have hb := globalBody_frame search { s with checks := s.checks + 1 } gq cap
        have h := ih (globalBody search { s with checks := s.checks + 1 } gq cap)
        obtain ⟨Δb, hΔb, hΔbe⟩ := hb.2.2
        obtain ⟨Δr, hΔr, hΔre⟩ := h.2.2
        refine ⟨h.1.trans hb.1,
          fun hinv => h.2.1 (hb.2.1 (DedupInv.congr rfl rfl hinv)),
          Δb ++ Δr, ?_, ?_⟩
        · rw [hΔr, hΔb, List.append_assoc]
        · intro e he
          rcases List.mem_append.1 he with he | he
          · rw [hΔbe e he]; exact ⟨rfl, by simp⟩
          · obtain ⟨h1, h2⟩ := hΔre e he
            exact ⟨h1, by simp [h2]⟩

theorem globalFallbackStep_skip {search tout plan cap s}
    (hg : ¬ s.allPosts.length < max 5 (cap / 4)) :
    globalFallbackStep search tout plan cap s = s := by
  simp [globalFallbackStep, hg]

theorem globalFallbackStep_tout {search tout plan cap s}
    (hg : s.allPosts.length < max 5 (cap / 4)) (ht : tout s.checks = true) :
    globalFallbackStep search tout plan cap s =
      { s with checks := s.checks + 1 } := by
  simp [globalFallbackStep, timedOutStep, hg, ht]

theorem globalFallbackStep_run {search tout plan cap s}
    (hg : s.allPosts.length < max 5 (cap / 4)) (ht : tout s.checks = false) :
    globalFallbackStep search tout plan cap s =
      globalQueriesLoop search tout cap plan.global_queries
        { s with checks := s.checks + 1, global_fallback_triggered := true } := by
  simp [globalFallbackStep, timedOutStep, hg, ht]

/-- The fallback flag is still unset when the global-fallback decision
is reached. -/
theorem afterPhase2_flag (search : Option String → String → Nat → List Post)
    (tout : Nat → Bool) (plan : QueryPlan) (cap : Nat) :
    (afterPhase2 search tout plan cap).global_fallback_triggered = false := by
  show (phase2 search tout plan (perQueryLimit cap plan.subreddits.length) cap
    (afterPhase1 search tout plan cap)).global_fallback_triggered = false
  rw [(phase2_frame _ _ _ _ _ _).1]
  show (phase1 search tout plan (perQueryLimit cap plan.subreddits.length)
    plan.subreddits initFanState).global_fallback_triggered = false
  rw [(phase1_frame _ _ _ _ _ _).1]
  rfl

/-- The dedup invariant holds at the global-fallback decision point. -/
theorem afterPhase2_dedupInv (search : Option String → String → Nat → List Post)
    (tout : Nat → Bool) (plan : QueryPlan) (cap : Nat) :
    DedupInv (afterPhase2 search tout plan cap) := by
  have h1 : DedupInv (afterPhase1 search tout plan cap) :=
    DedupInv.congr rfl rfl
      ((phase1_frame search tout plan (perQueryLimit cap plan.subreddits.length)
        plan.subreddits initFanState).2 dedupInv_init)
  exact DedupInv.congr rfl rfl
    ((phase2_frame search tout plan (perQueryLimit cap plan.subreddits.length)
      cap (afterPhase1 search tout plan cap)).2.1 h1)

/-- The dedup invariant survives the global-fallback step. -/
theorem globalFallbackStep_dedupInv {search tout plan cap s} (h : DedupInv s) :
    DedupInv (globalFallbackStep search tout plan cap s) := by
  by_cases hg : s.allPosts.length < max 5 (cap / 4)
  · by_cases ht : tout s.checks
    · rw [globalFallbackStep_tout hg ht]
      exact DedupInv.congr rfl rfl h
    · rw [globalFallbackStep_run hg (by simpa using ht)]
      exact (globalQueriesLoop_frame _ _ _ _ _).2.1 (DedupInv.congr rfl rfl h)
  · rw [globalFallbackStep_skip hg]
    exact h

/-- Claim C1.  Across Phase 1, Phase 2 and global fallback, every stable
id appears at most once in the returned list, the returned list is the
collected list truncated to at most `result_cap` items, and `_collect`
keeps exactly the first-seen occurrence of each id in insertion order
(it coincides with the specification filter `specDedup`). -/
theorem fanOut_dedup (search : Option String → String → Nat → List Post)
    (tout : Nat → Bool) (plan : QueryPlan) (cap : Nat) :
    (((fanOutSearch search tout plan cap).1.map Post.id).Nodup
      ∧ (fanOutSearch search tout plan cap).1.length ≤ cap
      ∧ (fanOutSearch search tout plan cap).1
          = (fanOutSearch search tout plan cap).2.allPosts.take cap)
    ∧ (∀ (s : FanState) (ps : List Post),
        (collect s ps).2.allPosts = s.allPosts ++ specDedup s.seenIds ps
          ∧ (collect s ps).1 = (specDedup s.seenIds ps).length) := by
  refine ⟨⟨?_, ?_, rfl⟩, fun s ps => collect_eq_specDedup ps s⟩
  · have hinv : DedupInv (fanOutSearch search tout plan cap).2 :=
      globalFallbackStep_dedupInv (afterPhase2_dedupInv search tout plan cap)
    have hnd := hinv.2
    show (((fanOutSearch search tout plan cap).2.allPosts.take cap).map Post.id).Nodup
    rw [List.map_take]
    exact List.Nodup.sublist (List.take_sublist _ _) hnd
  · show ((fanOutSearch search tout plan cap).2.allPosts.take cap).length ≤ cap
    rw [List.length_take]
    omega

/-- Claim C3.  After both phases, global fallback executes iff the
collected count is strictly below `max(5, result_cap // 4)` and the
deadline check at that point has not fired; when skipped the state is
unchanged and the flag stays false; when it runs, every query it issues
is unscoped and drawn from the plan's global queries. -/
theorem globalFallback_trigger_iff (search : Option String → String → Nat → List Post)
    (tout : Nat → Bool) (plan : QueryPlan) (cap : Nat) :
    ((fanOutSearch search tout plan cap).2.global_fallback_triggered = true ↔
      ((afterPhase2 search tout plan cap).allPosts.length < max 5 (cap / 4)
        ∧ tout (afterPhase2 search tout plan cap).checks = false))
    ∧ (max 5 (cap / 4) ≤ (afterPhase2 search tout plan cap).allPosts.length →
        (fanOutSearch search tout plan cap).2 = afterPhase2 search tout plan cap
          ∧ (fanOutSearch search tout plan cap).2.global_fallback_triggered = false)
    ∧ (∀ e ∈ (fanOutSearch search tout plan cap).2.queryLog.drop
          (afterPhase2 search tout plan cap).queryLog.length,
        e.1 = none ∧ e.2 ∈ plan.global_queries) := by
  have hflag := afterPhase2_flag search tout plan cap
  by_cases hg : (afterPhase2 search tout plan cap).allPosts.length < max 5 (cap / 4)
  · by_cases ht : tout (afterPhase2 search tout plan cap).checks
    · have heq : (fanOutSearch search tout plan cap).2 =
          { afterPhase2 search tout plan cap with
              checks := (afterPhase2 search tout plan cap).checks + 1 } :=
        globalFallbackStep_tout hg ht
      refine ⟨?_, fun hcap => absurd hg (by omega), ?_⟩
      · rw [heq]
        show (afterPhase2 search tout plan cap).global_fallback_triggered = true ↔ _
        simp [hflag, ht]
      · intro e he
        rw [heq] at he
        simp only [List.drop_length] at he
        cases he
    · have ht' : tout (afterPhase2 search tout plan cap).checks = false := by
        simpa using ht
      have heq : (fanOutSearch search tout plan cap).2 =
          globalQueriesLoop search tout cap plan.global_queries
            { afterPhase2 search tout plan cap with
                checks := (afterPhase2 search tout plan cap).checks + 1,
                global_fallback_triggered := true } :=
        globalFallbackStep_run hg ht'
      have hloop := globalQueriesLoop_frame search tout cap plan.global_queries
        { afterPhase2 search tout plan cap with
            checks := (afterPhase2 search tout plan cap).checks + 1,
            global_fallback_triggered := true }
      obtain ⟨Δ, hΔ, hΔe⟩ := hloop.2.2
      refine ⟨?_, fun hcap => absurd hg (by omega), ?_⟩
      · rw [heq, hloop.1]
        simp [hg, ht']
      · intro e he
        rw [heq, hΔ] at he
        rw [show ({ afterPhase2 search tout plan cap with
            checks := (afterPhase2 search tout plan cap).checks + 1,
            global_fallback_triggered := true } : FanState).queryLog
          = (afterPhase2 search tout plan cap).queryLog from rfl, List.drop_left] at he
        exact hΔe e he
  · have heq : (fanOutSearch search tout plan cap).2 = afterPhase2 search tout plan cap :=
      globalFallbackStep_skip hg
    refine ⟨?_, fun _ => ⟨heq, by rw [heq]; exact hflag⟩, ?_⟩
    · rw [heq, hflag]
      simp only [Bool.false_eq_true, false_iff]
      intro hc
      exact hg hc.1
    · intro e he
      rw [heq, List.drop_length] at he
      cases he

/-- Claim C4.  Every query Phase 2 issues targets a community marked
yielding in Phase 1 and is one of that community's queries after the
first (raw or quote-stripped) — a community that yielded nothing gets
no Phase 2 query; and when the cap is already reached after Phase 1,
Phase 2 issues no query at all. -/
theorem phase2_only_yielding (search : Option String → String → Nat → List Post)
    (tout : Nat → Bool) (plan : QueryPlan) (cap : Nat) :
    (∀ e ∈ (afterPhase2 search tout plan cap).queryLog.drop
        (afterPhase1 search tout plan cap).queryLog.length,
      ∃ sub ∈ (afterPhase1 search tout plan cap).yieldingSubs,
        ∃ q0 ∈ (plan.queries_for_sub sub).drop 1,
          e = (some sub, q0) ∨ e = (some sub, stripQuotes q0))
    ∧ (cap ≤ (afterPhase1 search tout plan cap).allPosts.length →
        (afterPhase2 search tout plan cap).queryLog
          = (afterPhase1 search tout plan cap).queryLog) := by
  have h := phase2_frame search tout plan (perQueryLimit cap plan.subreddits.length)
    cap (afterPhase1 search tout plan cap)
  obtain ⟨Δ, hΔ, hΔe⟩ := h.2.2.1
  constructor
  · intro e he
    have hlog : (afterPhase2 search tout plan cap).queryLog
        = (afterPhase1 search tout plan cap).queryLog ++ Δ := hΔ
    rw [hlog, List.drop_left] at he
    exact hΔe e he
  · intro hcap
    have heq := h.2.2.2 hcap
    show (phase2 search tout plan (perQueryLimit cap plan.subreddits.length) cap
      (afterPhase1 search tout plan cap)).queryLog
        = (afterPhase1 search tout plan cap).queryLog
    rw [heq]

/-- Non-word characters of the input survive `AND`-token removal. -/
theorem nonword_mem_scanRuns :
    ∀ (l acc : List Char) (c : Char), c ∈ l → isWordChar c = false →
      c ∈ scanRuns acc l := by
  intro l
  induction l with
  | nil => intro acc c h _; cases h
  | cons d cs ih =>
    intro acc c hc hw
    by_cases hd : isWordChar d
    · simp only [scanRuns, hd, if_true]
      rcases List.mem_cons.1 hc with hc | hc
      · subst hc; rw [hd] at hw; cases hw
      · exact ih _ c hc hw
    · simp only [scanRuns, hd, Bool.false_eq_true, if_false, flushRun]
      rcases List.mem_cons.1 hc with hc | hc
      · subst hc
        exact List.mem_append.2 (Or.inr (by simp))
      · exact List.mem_append.2 (Or.inr (by simp [ih [] c hc hw]))

/-- Non-space characters of the input survive whitespace collapsing. -/
theorem nonspace_mem_collapseGo :
    ∀ (l : List Char) (f : Bool) (c : Char), c ∈ l → isSpaceChar c = false →
      c ∈ collapseSpacesGo f l := by
  intro l
  induction l with
  | nil => intro f c h _; cases h
  | cons d cs ih =>
    intro f c hc hs
    by_cases hd : isSpaceChar d
    · have hc' : c ∈ cs := by
        rcases List.mem_cons.1 hc with hc | hc
        · subst hc; rw [hd] at hs; cases hs
        · exact hc
      cases f with
      | true => simpa [collapseSpacesGo, hd] using ih true c hc' hs
      | false =>
        simp only [collapseSpacesGo, hd, if_true, Bool.false_eq_true, if_false]
        exact List.mem_cons.2 (Or.inr (ih true c hc' hs))
    · simp only [collapseSpacesGo, hd, Bool.false_eq_true, if_false]
      rcases List.mem_cons.1 hc with hc | hc
      · subst hc; simp
      · exact List.mem_cons.2 (Or.inr (ih false c hc hs))

/-- Non-space characters survive `dropWhile isSpaceChar`. -/
theorem nonspace_mem_dropWhile :
    ∀ (l : List Char) (c : Char), c ∈ l → isSpaceChar c = false →
      c ∈ l.dropWhile isSpaceChar := by
  intro l
  induction l with
  | nil => intro c h _; cases h
  | cons d cs ih =>
    intro c hc hs
    by_cases hd : isSpaceChar d
    · simp only [List.dropWhile_cons, hd, if_true]
      rcases List.mem_cons.1 hc with hc | hc
      · subst hc; rw [hd] at hs; cases hs
      · exact ih c hc hs
    · simpa [List.dropWhile_cons, hd] using hc

/-- Non-space characters survive end trimming. -/
theorem nonspace_mem_stripEnds {l : List Char} {c : Char} (hc : c ∈ l)
    (hs : isSpaceChar c = false) : c ∈ stripEnds l := by
  unfold stripEnds
  rw [List.mem_reverse]
  refine nonspace_mem_dropWhile _ c ?_ hs
  rw [List.mem_reverse]
  exact nonspace_mem_dropWhile _ c hc hs

/-- The sanitizer preserves double quotes: they are neither word
characters, parentheses, nor whitespace. -/
theorem quote_mem_sanitizeQuery {q : String} (h : '"' ∈ q.data) :
    '"' ∈ (sanitizeQuery q).data := by
  have h1 : '"' ∈ removeAndTokens q.data :=
    nonword_mem_scanRuns q.data [] '"' h (by decide)
  have h2 : '"' ∈ removeParens (removeAndTokens q.data) := by
    unfold removeParens
    rw [List.mem_filter]
    exact ⟨h1, by decide⟩
  have h3 : '"' ∈ collapseSpaces (removeParens (removeAndTokens q.data)) :=
    nonspace_mem_collapseGo _ false '"' h2 (by decide)
  exact nonspace_mem_stripEnds h3 (by decide)

/-- A query containing a double quote never sanitizes to the empty
string. -/
theorem sanitizeQuery_ne_empty_of_hasQuote {q : String}
    (h : hasQuote q = true) : ¬ sanitizeQuery q = "" := by
  intro hq
  have h1 : '"' ∈ q.data := by
    simpa [hasQuote] using h
  have h2 := quote_mem_sanitizeQuery h1
  rw [hq] at h2
  cases h2

/-- Quote stripping removes every double quote. -/
theorem hasQuote_stripQuotes (q : String) : hasQuote (stripQuotes q) = false := by
  have h : '"' ∉ (stripQuotes q).data := by
    simp [stripQuotes, List.mem_filter]
  simpa [hasQuote] using h

theorem rqwqf_eq_no_retry {search s sub q lim}
    (h : ((runQuery search s (some sub) q lim).1.isEmpty && hasQuote q) = false) :
    runQueryWithQuoteFallback search s sub q lim
      = runQuery search s (some sub) q lim := by
  simp [runQueryWithQuoteFallback, h]

theorem rqwqf_eq_retry {search s sub q lim}
    (h : ((runQuery search s (some sub) q lim).1.isEmpty && hasQuote q) = true) :
    runQueryWithQuoteFallback search s sub q lim =
      ((runQuery search (runQuery search s (some sub) q lim).2
          (some sub) (stripQuotes q) lim).1,
       { (runQuery search (runQuery search s (some sub) q lim).2
            (some sub) (stripQuotes q) lim).2 with
         quoteRetries := (runQuery search (runQuery search s (some sub) q lim).2
            (some sub) (stripQuotes q) lim).2.quoteRetries + 1 }) := by
  simp [runQueryWithQuoteFallback, h]

/-- Claim C5.  The quote fallback of Phases 1 and 2 (`phase1Body` and
`phase2Body` both run queries through `runQueryWithQuoteFallback`):
a query without a double quote is never retried; a quoted query whose
search yields results is never retried; a quoted query yielding zero
results is retried exactly once, with all quotes stripped — and since
the stripped query contains no quote, a second retry cannot occur. -/
theorem quote_fallback_once (search : Option String → String → Nat → List Post)
    (s : FanState) (sub q : String) (lim : Nat) :
    (hasQuote q = false →
      (runQueryWithQuoteFallback search s sub q lim).2.quoteRetries = s.quoteRetries
        ∧ ∀ e ∈ (runQueryWithQuoteFallback search s sub q lim).2.queryLog.drop
            s.queryLog.length, e = (some sub, q))
    ∧ (hasQuote q = true → search (some sub) (sanitizeQuery q) lim ≠ [] →
      (runQueryWithQuoteFallback search s sub q lim).2.quoteRetries = s.quoteRetries
        ∧ (runQueryWithQuoteFallback search s sub q lim).2.queryLog.drop
            s.queryLog.length = [(some sub, q)]
        ∧ (runQueryWithQuoteFallback search s sub q lim).1
            = search (some sub) (sanitizeQuery q) lim)
    ∧ (hasQuote q = true → search (some sub) (sanitizeQuery q) lim = [] →
      (runQueryWithQuoteFallback search s sub q lim).2.quoteRetries
          = s.quoteRetries + 1
        ∧ (runQueryWithQuoteFallback search s sub q lim).2.queryLog.drop
            s.queryLog.length
          = (some sub, q) ::
              (if sanitizeQuery (stripQuotes q) = "" then []
               else [(some sub, stripQuotes q)])
        ∧ hasQuote (stripQuotes q) = false
        ∧ (runQueryWithQuoteFallback search s sub q lim).1
            = (if sanitizeQuery (stripQuotes q) = "" then []
               else search (some sub) (sanitizeQuery (stripQuotes q)) lim)) := by
  refine ⟨?_, ?_, ?_⟩
  · intro hqf
    have hcond : ((runQuery search s (some sub) q lim).1.isEmpty
        && hasQuote q) = false := by rw [hqf, Bool.and_false]
    rw [rqwqf_eq_no_retry hcond]
    by_cases hs : sanitizeQuery q = ""
    · rw [runQuery_eq_of_empty hs]
      exact ⟨rfl, by simp [List.drop_length]⟩
    · rw [runQuery_eq_of_ne hs]
      refine ⟨rfl, ?_⟩
      show ∀ e ∈ (s.queryLog ++ [(some sub, q)]).drop s.queryLog.length,
        e = (some sub, q)
      rw [List.drop_left]
      simp
  · intro hqt hne
    have hs : ¬ sanitizeQuery q = "" := sanitizeQuery_ne_empty_of_hasQuote hqt
    have hrun1 := runQuery_eq_of_ne hs search s (some sub) lim
    have hie : (search (some sub) (sanitizeQuery q) lim).isEmpty = false := by
      simpa [List.isEmpty_iff] using hne
    have hcond : ((runQuery search s (some sub) q lim).1.isEmpty
        && hasQuote q) = false := by
      rw [hrun1]
      show ((search (some sub) (sanitizeQuery q) lim).isEmpty && hasQuote q) = false
      rw [hie, Bool.false_and]
    rw [rqwqf_eq_no_retry hcond, hrun1]
    refine ⟨rfl, ?_, rfl⟩
    show (s.queryLog ++ [(some sub, q)]).drop s.queryLog.length = [(some sub, q)]
    exact List.drop_left _ _
  · intro hqt hemp
    have hs : ¬ sanitizeQuery q = "" := sanitizeQuery_ne_empty_of_hasQuote hqt
    have hrun1 := runQuery_eq_of_ne hs search s (some sub) lim
    have hcond : ((runQuery search s (some sub) q lim).1.isEmpty
        && hasQuote q) = true := by
      rw [hrun1]
      show ((search (some sub) (sanitizeQuery q) lim).isEmpty && hasQuote q) = true
      rw [hemp, hqt]
      rfl
    rw [rqwqf_eq_retry hcond, hrun1]
    by_cases hs2 : sanitizeQuery (stripQuotes q) = ""
    · rw [runQuery_eq_of_empty hs2]
      refine ⟨rfl, ?_, hasQuote_stripQuotes q, by simp [hs2]⟩
      show (s.queryLog ++ [(some sub, q)]).drop s.queryLog.length = _
      rw [List.drop_left]
      simp [hs2]
    · rw [runQuery_eq_of_ne hs2]
      refine ⟨rfl, ?_, hasQuote_stripQuotes q, by simp [hs2]⟩
      show ((s.queryLog ++ [(some sub, q)]) ++ [(some sub, stripQuotes q)]).drop
          s.queryLog.length = _
      rw [List.append_assoc, List.drop_left]
      simp [hs2]

/-- Claim C9.  For a plan with at least one community, the per-community
query budget equals `max(2, min(5, result_cap // community_count))`:
the `max(num_subs, 1)` guard is inert. -/
theorem perQueryLimit_budget (plan : QueryPlan) (cap : Nat)
    (h : plan.subreddits ≠ []) :
    perQueryLimit cap plan.subreddits.length
      = max 2 (min 5 (cap / plan.subreddits.length)) := by
  unfold perQueryLimit
  have h1 : 1 ≤ plan.subreddits.length := List.length_pos.2 h
  rw [Nat.max_eq_left h1]

/-- Claim C9, witness. -/
theorem perQueryLimit_budget_witness :
    perQueryLimit 20
      (QueryPlan.mk "i" ["s"] [] [] "pain" "llm").subreddits.length
      = max 2 (min 5 (20 / (QueryPlan.mk "i" ["s"] [] [] "pain" "llm").subreddits.length)) :=
  perQueryLimit_budget (QueryPlan.mk "i" ["s"] [] [] "pain" "llm") 20 (by decide)

/-- Claim C10.  A plan with zero communities is processed totally: the
budget divisor is guarded by `max(num_subs, 1) = 1` (no division by
zero), Phases 1 and 2 do nothing, and the engine still proceeds to the
global-fallback check, which then triggers exactly when the first
deadline check has not expired. -/
theorem empty_plan_total (search : Option String → String → Nat → List Post)
    (tout : Nat → Bool) (cap : Nat) (plan : QueryPlan)
    (h : plan.subreddits = []) :
    (max plan.subreddits.length 1 = 1)
    ∧ (perQueryLimit cap plan.subreddits.length = max 2 (min 5 cap))
    ∧ ((fanOutSearch search tout plan cap).2.global_fallback_triggered
        = !(tout 0)) := by
  have ha1 : afterPhase1 search tout plan cap = initFanState := by
    unfold afterPhase1
    rw [h]
    rfl
  have hg : ¬ ((afterPhase1 search tout plan cap).allPosts.length < cap
      ∧ (afterPhase1 search tout plan cap).yieldingSubs ≠ []) := by
    rw [ha1]
    rintro ⟨_, hy⟩
    exact hy rfl
  have ha2 : afterPhase2 search tout plan cap = initFanState := by
    unfold afterPhase2
    rw [show phase2 search tout plan (perQueryLimit cap plan.subreddits.length) cap
        (afterPhase1 search tout plan cap) = afterPhase1 search tout plan cap from by
      unfold phase2; rw [if_neg hg]]
    rw [ha1]
    rfl
  have hlen : (afterPhase2 search tout plan cap).allPosts.length < max 5 (cap / 4) := by
    rw [ha2]
    show (0 : Nat) < max 5 (cap / 4)
    exact lt_of_lt_of_le (by norm_num) (Nat.le_max_left _ _)
  refine ⟨by rw [h]; rfl, ?_, ?_⟩
  · unfold perQueryLimit
    rw [h]
    show max 2 (min 5 (cap / max 0 1)) = max 2 (min 5 cap)
    norm_num
  · by_cases ht : tout 0
    · have ht' : tout (afterPhase2 search tout plan cap).checks = true := by
        rw [ha2]; exact ht
      show (globalFallbackStep search tout plan cap
        (afterPhase2 search tout plan cap)).global_fallback_triggered = !(tout 0)
      rw [globalFallbackStep_tout hlen ht']
      show (afterPhase2 search tout plan cap).global_fallback_triggered = !(tout 0)
      rw [afterPhase2_flag, ht]
      rfl
    · have ht' : tout (afterPhase2 search tout plan cap).checks = false := by
        rw [ha2]; simpa using ht
      show (globalFallbackStep search tout plan cap
        (afterPhase2 search tout plan cap)).global_fallback_triggered = !(tout 0)
      rw [globalFallbackStep_run hlen ht']
      rw [(globalQueriesLoop_frame _ _ _ _ _).1]
      show true = !(tout 0)
      rw [show tout 0 = false from by simpa using ht]
      rfl

/-! ## Concrete fixtures used by witnesses -/

/-- Two-community plan fixture. -/
def wPlan : QueryPlan :=
  { intent := "t", subreddits := ["s1", "s2"],
    sub_queries := [("s1", ["q1", "q1b"]), ("s2", ["q2", "q2b"])],
    global_queries := ["g"], mode := "pain", source := "llm" }

/-- Search oracle fixture returning six fixed posts per community. -/
def wSearch : Option String → String → Nat → List Post
  | some "s1", _, n =>
    ((List.range 6).map (fun i => Post.mk ("a" ++ toString i) "s1" "t")).take n
  | some "s2", _, n =>
    ((List.range 6).map (fun i => Post.mk ("b" ++ toString i) "s2" "t")).take n
  | _, _, _ => []

/-- Search oracle fixture that only answers the quote-stripped query. -/
def wSearchQ : Option String → String → Nat → List Post
  | some "s1", q, _ => if q = "x OR y" then [Post.mk "z" "s1" "t"] else []
  | _, _, _ => []

/-- Claim C3, witness.  With two communities each yielding enough posts
(10 collected, threshold `max 5 (10 / 4) = 5`), global fallback is
skipped and the flag stays false. -/
theorem globalFallback_trigger_iff_witness :
    (fanOutSearch wSearch (fun _ => false) wPlan 10).2
        = afterPhase2 wSearch (fun _ => false) wPlan 10
    ∧ (fanOutSearch wSearch (fun _ => false) wPlan 10).2.global_fallback_triggered
        = false :=
  (globalFallback_trigger_iff wSearch (fun _ => false) wPlan 10).2.1 (by decide)

/-- Claim C4, witness.  With cap 4 reached already in Phase 1, Phase 2
issues no query. -/
theorem phase2_only_yielding_witness :
    (afterPhase2 wSearch (fun _ => false) wPlan 4).queryLog
      = (afterPhase1 wSearch (fun _ => false) wPlan 4).queryLog :=
  (phase2_only_yielding wSearch (fun _ => false) wPlan 4).2 (by decide)

/-- Claim C5, witness.  The quoted query `"x" OR "y"` yields nothing and
is retried exactly once with quotes stripped. -/
theorem quote_fallback_once_witness :
    (runQueryWithQuoteFallback wSearchQ initFanState "s1" "\"x\" OR \"y\"" 5).2.quoteRetries
        = initFanState.quoteRetries + 1
    ∧ (runQueryWithQuoteFallback wSearchQ initFanState "s1" "\"x\" OR \"y\"" 5).2.queryLog.drop
        initFanState.queryLog.length
      = (some "s1", "\"x\" OR \"y\"") ::
          (if sanitizeQuery (stripQuotes "\"x\" OR \"y\"") = "" then []
           else [(some "s1", stripQuotes "\"x\" OR \"y\"")])
    ∧ hasQuote (stripQuotes "\"x\" OR \"y\"") = false
    ∧ (runQueryWithQuoteFallback wSearchQ initFanState "s1" "\"x\" OR \"y\"" 5).1
      = (if sanitizeQuery (stripQuotes "\"x\" OR \"y\"") = "" then []
         else wSearchQ (some "s1") (sanitizeQuery (stripQuotes "\"x\" OR \"y\"")) 5) :=
  (quote_fallback_once wSearchQ initFanState "s1" "\"x\" OR \"y\"" 5).2.2
    (by decide) (by decide)

/-! ## The empty-field guard (claim C6) -/

theorem lookup_dictSet_self {β : Type} :
    ∀ (d : List (String × β)) (k : String) (v : β),
      (dictSet d k v).lookup k = some v := by
  intro d
  induction d with
  | nil => intro k v; simp [dictSet, List.lookup]
  | cons p rest ih =>
    intro k v
    obtain ⟨k', v'⟩ := p
    by_cases hk : k' = k
    · subst hk
      simp [dictSet, List.lookup]
    · simp only [dictSet, hk, if_false, List.lookup]
      rw [show (k == k') = false from beq_eq_false_iff_ne.2 (fun h => hk h.symm)]
      exact ih k v

theorem lookup_dictSet_ne {β : Type} :
    ∀ (d : List (String × β)) (k k' : String) (v : β), k' ≠ k →
      (dictSet d k v).lookup k' = d.lookup k' := by
  intro d
  induction d with
  | nil =>
    intro k k' v hne
    simp only [dictSet, List.lookup]
    rw [show (k' == k) = false from beq_eq_false_iff_ne.2 hne]
  | cons p rest ih =>
    intro k k' v hne
    obtain ⟨k₀, v₀⟩ := p
    by_cases hk : k₀ = k
    · subst hk
      simp only [dictSet, if_pos rfl, List.lookup]
      rw [show (k' == k₀) = false from beq_eq_false_iff_ne.2 hne]
    · simp only [dictSet, hk, if_false, List.lookup]
      by_cases hk' : k' = k₀
      · rw [show (k' == k₀) = true from beq_iff_eq.2 hk']
      · rw [show (k' == k₀) = false from beq_eq_false_iff_ne.2 hk']
        exact ih k k' v hne

theorem guardVal_ne_nil (g : List String) (i : String) : guardVal g i ≠ [] := by
  unfold guardVal
  by_cases hg : g.isEmpty
  · simp [hg]
  · rw [if_neg hg]
    cases g with
    | nil => simp at hg
    | cons a g' => simp [List.take]

theorem guard_cons_keep {g : List String} {i x : String} {rest : List String}
    {sq : List (String × List String)} {qs : List String}
    (hl : sq.lookup x = some qs) (hne : qs.isEmpty = false) :
    applyEmptyFieldGuard g i (x :: rest) sq = applyEmptyFieldGuard g i rest sq := by
  simp [applyEmptyFieldGuard, hl, hne]

theorem guard_cons_set_empty {g : List String} {i x : String} {rest : List String}
    {sq : List (String × List String)} {qs : List String}
    (hl : sq.lookup x = some qs) (he : qs.isEmpty = true) :
    applyEmptyFieldGuard g i (x :: rest) sq
      = applyEmptyFieldGuard g i rest (dictSet sq x (guardVal g i)) := by
  simp [applyEmptyFieldGuard, hl, he]

theorem guard_cons_set_none {g : List String} {i x : String} {rest : List String}
    {sq : List (String × List String)} (hl : sq.lookup x = none) :
    applyEmptyFieldGuard g i (x :: rest) sq
      = applyEmptyFieldGuard g i rest (dictSet sq x (guardVal g i)) := by
  simp [applyEmptyFieldGuard, hl]

/-- The guard never touches an entry that already has a nonempty query
list. -/
theorem guard_preserves_nonempty (g : List String) (i : String) :
    ∀ (subs : List String) (sq : List (String × List String)) (sub : String)
      (qs : List String), sq.lookup sub = some qs → qs ≠ [] →
      (applyEmptyFieldGuard g i subs sq).lookup sub = some qs := by
  intro subs
  induction subs with
  | nil => intro sq sub qs h _; exact h
  | cons x rest ih =>
    intro sq sub qs h hne
    by_cases hx : x = sub
    · subst hx
      rw [guard_cons_keep h (by simpa using hne)]
      exact ih sq x qs h hne
    · cases hl : sq.lookup x with
      | none =>
        rw [guard_cons_set_none hl]
        refine ih _ sub qs ?_ hne
        rw [lookup_dictSet_ne _ _ _ _ (fun hc => hx hc.symm)]
        exact h
      | some qs' =>
        by_cases he : qs'.isEmpty
        · rw [guard_cons_set_empty hl he]
          refine ih _ sub qs ?_ hne
          rw [lookup_dictSet_ne _ _ _ _ (fun hc => hx hc.symm)]
          exact h
        · rw [guard_cons_keep hl (by simpa using he)]
          exact ih sq sub qs h hne

/-- A listed sub whose entry is missing or empty ends up with exactly
the substituted value. -/
theorem guard_sets (g : List String) (i : String) :
    ∀ (subs : List String) (sq : List (String × List String)) (sub : String),
      sub ∈ subs → (sq.lookup sub = none ∨ sq.lookup sub = some []) →
      (applyEmptyFieldGuard g i subs sq).lookup sub = some (guardVal g i) := by
  intro subs
  induction subs with
  | nil => intro sq sub hmem; cases hmem
  | cons x rest ih =>
    intro sq sub hmem hempty
    by_cases hx : x = sub
    · subst hx
      have hset : ∀ sq',
          sq' = dictSet sq x (guardVal g i) →
          (applyEmptyFieldGuard g i rest sq').lookup x = some (guardVal g i) := by
        intro sq' hsq'
        subst hsq'
        exact guard_preserves_nonempty g i rest _ x _
          (lookup_dictSet_self _ _ _) (guardVal_ne_nil g i)
      rcases hempty with hl | hl
      · rw [guard_cons_set_none hl]
        exact hset _ rfl
      · rw [guard_cons_set_empty hl (by simp)]
        exact hset _ rfl
    · have hmem' : sub ∈ rest := by
        rcases List.mem_cons.1 hmem with hc | hc
        · exact absurd hc.symm hx
        · exact hc
      have hkeep : (dictSet sq x (guardVal g i)).lookup sub = sq.lookup sub :=
        lookup_dictSet_ne _ _ _ _ (fun hc => hx hc.symm)
      cases hl : sq.lookup x with
      | none =>
        rw [guard_cons_set_none hl]
        exact ih _ sub hmem' (by rw [hkeep]; exact hempty)
      | some qs' =>
        by_cases he : qs'.isEmpty
        · rw [guard_cons_set_empty hl he]
          exact ih _ sub hmem' (by rw [hkeep]; exact hempty)
        · rw [guard_cons_keep hl (by simpa using he)]
          exact ih sq sub hmem' hempty

/-- After the guard, every listed sub has a nonempty entry. -/
theorem guard_nonempty (g : List String) (i : String) :
    ∀ (subs : List String) (sq : List (String × List String)) (sub : String),
      sub ∈ subs →
      ∃ qs, (applyEmptyFieldGuard g i subs sq).lookup sub = some qs ∧ qs ≠ [] := by
  intro subs sq sub hmem
  cases hl : sq.lookup sub with
  | none =>
    exact ⟨guardVal g i, guard_sets g i subs sq sub hmem (Or.inl hl),
      guardVal_ne_nil g i⟩
  | some qs =>
    by_cases he : qs = []
    · subst he
      exact ⟨guardVal g i, guard_sets g i subs sq sub hmem (Or.inr hl),
        guardVal_ne_nil g i⟩
    · exact ⟨qs, guard_preserves_nonempty g i subs sq sub qs hl he, he⟩

/-- Claim C6, counterexample.  With three global queries, a community
with no queries is assigned only the first two of them
(`global_queries[:2]`), not the full global query list as the claim
states. -/
theorem parse_guard_takes_two :
    (parseQueryPlanCore ["s"] [] ["g1", "g2", "g3"] "i" "pain").map
        (fun p => p.sub_queries.lookup "s") = some (some ["g1", "g2"])
    ∧ (["g1", "g2"] : List String) ≠ ["g1", "g2", "g3"] :=
  ⟨by decide, by decide⟩

/-- Claim C6 (amended).  In every plan produced by `_parse_query_plan`,
every listed community has a nonempty query list; a community whose
entry was absent or empty is assigned the **first two** of the plan's
global queries (or the intent string when `global_queries` is empty) —
never an empty query list. -/
theorem parse_guard_amended (subreddits : List String)
    (sub_queries : List (String × List String)) (global_queries : List String)
    (intent mode : String) (plan : QueryPlan)
    (hp : parseQueryPlanCore subreddits sub_queries global_queries intent mode
      = some plan) :
    ∀ sub ∈ plan.subreddits,
      (∃ qs, plan.sub_queries.lookup sub = some qs ∧ qs ≠ [])
      ∧ ((sub_queries.lookup sub = none ∨ sub_queries.lookup sub = some []) →
          plan.sub_queries.lookup sub = some (guardVal global_queries intent)) := by
  unfold parseQueryPlanCore at hp
  by_cases hs : subreddits.isEmpty
  · rw [if_pos hs] at hp; cases hp
  · rw [if_neg hs] at hp
    have hp' := Option.some.inj hp
    subst hp'
    intro sub hmem
    exact ⟨guard_nonempty global_queries intent subreddits sub_queries sub hmem,
      fun hempty =>
        guard_sets global_queries intent subreddits sub_queries sub hmem hempty⟩

/-- Claim C6, witness. -/
theorem parse_guard_amended_witness :
    parseQueryPlanCore ["s"] [] ["g1", "g2", "g3"] "i" "m"
      = some (QueryPlan.mk "i" ["s"] [("s", ["g1", "g2"])] ["g1", "g2", "g3"] "m" "llm")
    ∧ (∃ qs, (QueryPlan.mk "i" ["s"] [("s", ["g1", "g2"])] ["g1", "g2", "g3"] "m"
        "llm").sub_queries.lookup "s" = some qs ∧ qs ≠ [])
    ∧ (QueryPlan.mk "i" ["s"] [("s", ["g1", "g2"])] ["g1", "g2", "g3"] "m"
        "llm").sub_queries.lookup "s" = some (guardVal ["g1", "g2", "g3"] "i") :=
  ⟨by decide,
   (parse_guard_amended ["s"] [] ["g1", "g2", "g3"] "i" "m" _ (by decide) "s"
     (by decide)).1,
   (parse_guard_amended ["s"] [] ["g1", "g2", "g3"] "i" "m" _ (by decide) "s"
     (by decide)).2 (Or.inl rfl)⟩

/-! ## LLM plan validation pass (claim C8) -/

/-- Payload of a successful `about.json` probe (`kind == "t5"`):
display name, subscriber count, and the adult-content flag. -/
structure AboutData where
  display : String
  subscribers : Nat
  over18 : Bool
deriving Repr

/-- The loop of `_validate_subreddits`: probe each name, keep
`{display_name: subscribers}` for existing non-over18 subs, in
insertion order.  The oracle returns `none` when the fetch failed or
the payload was not a `t5` thing. -/
def validateLoop (about : String → Option AboutData) :
    List String → List (String × Nat) → List (String × Nat)
  | [], valid => valid
  | name :: rest, valid =>
    match about name with
    | some d =>
      if d.over18 then validateLoop about rest valid
      else validateLoop about rest (dictSet valid d.display d.subscribers)
    | none => validateLoop about rest valid

/-- Models `_validate_subreddits(session, names, max_checks)`: only the first
`max_checks` names are probed. -/
def validateSubreddits (about : String → Option AboutData)
    (names : List String) (maxChecks : Nat) : List (String × Nat) :=
  validateLoop about (names.take maxChecks) []

/-- The warning text of the 30% check (an f-string in the source). -/
def validationWarning (failedCount checked : Nat) : String :=
  toString failedCount ++ "/" ++ toString checked ++
    " suggested subs failed validation; LLM quality may be degraded"

/-- The LLM-plan validation pass of `fetch_posts_noapi`: cap validation
at 20 subs, warn when the failure-rate check fires, keep only validated
subs and their queries in the original LLM order.

The source compares IEEE doubles: `1 - len(validated)/checked > 0.30`.
For `1 ≤ checked ≤ 20` (always true here) that comparison holds exactly
when `10 * (checked - validated) ≥ 3 * checked`: since `0.7` rounds
down and `0.30` rounds down as doubles, the borderline ratios `7/10`
and `14/20` make the float comparison fire at exactly 30%, and every
other ratio with denominator ≤ 20 is at least `1/260` away from `0.3`,
far above double rounding error.  That exact integer form is used
here. -/
def validateLlmPlan (about : String → Option AboutData) (plan : QueryPlan)
    (warnings : List String) : QueryPlan × List String × Nat :=
  let validated := validateSubreddits about plan.subreddits 20
  let checked := min plan.subreddits.length 20
  let warnings' :=
    if 0 < checked ∧ 10 * (checked - validated.length) ≥ 3 * checked then
      warnings ++ [validationWarning (checked - validated.length) checked]
    else warnings
  let validNames := validated.map Prod.fst
  ({ plan with
      subreddits := plan.subreddits.filter (fun s => validNames.contains s),
      sub_queries := plan.sub_queries.filter (fun p => validNames.contains p.1) },
   warnings', validated.length)

theorem mem_dictSet {β : Type} :
    ∀ (d : List (String × β)) (k : String) (v : β) (p : String × β),
      p ∈ dictSet d k v → p = (k, v) ∨ p ∈ d := by
  intro d
  induction d with
  | nil =>
    intro k v p h
    simp only [dictSet, List.mem_singleton] at h
    exact Or.inl h
  | cons q rest ih =>
    intro k v p h
    obtain ⟨k', v'⟩ := q
    by_cases hk : k' = k
    · simp only [dictSet, if_pos hk, List.mem_cons] at h
      rcases h with h1 | h1
      · exact Or.inl (by rw [h1, hk])
      · exact Or.inr (List.mem_cons.2 (Or.inr h1))
    · simp only [dictSet, hk, if_false, List.mem_cons] at h
      rcases h with h1 | h1
      · exact Or.inr (List.mem_cons.2 (Or.inl h1))
      · rcases ih k v p h1 with h2 | h2
        · exact Or.inl h2
        · exact Or.inr (List.mem_cons.2 (Or.inr h2))

/-- Every validated entry arises from probing one of the given names
and finding an existing, non-adult sub. -/
theorem mem_validateLoop (about : String → Option AboutData) :
    ∀ (names : List String) (valid : List (String × Nat)) (p : String × Nat),
      p ∈ validateLoop about names valid →
      p ∈ valid ∨ ∃ name ∈ names, ∃ d, about name = some d ∧ d.over18 = false
        ∧ p = (d.display, d.subscribers) := by
  intro names
  induction names with
  | nil => intro valid p h; exact Or.inl h
  | cons name rest ih =>
    intro valid p h
    cases ha : about name with
    | none =>
      rw [show validateLoop about (name :: rest) valid
          = validateLoop about rest valid from by simp [validateLoop, ha]] at h
      rcases ih valid p h with h | ⟨n, hn, d, h1, h2, h3⟩
      · exact Or.inl h
      · exact Or.inr ⟨n, by simp [hn], d, h1, h2, h3⟩
    | some d =>
      by_cases ho : d.over18
      · rw [show validateLoop about (name :: rest) valid
            = validateLoop about rest valid from by simp [validateLoop, ha, ho]] at h
        rcases ih valid p h with h | ⟨n, hn, d', h1, h2, h3⟩
        · exact Or.inl h
        · exact Or.inr ⟨n, by simp [hn], d', h1, h2, h3⟩
      · rw [show validateLoop about (name :: rest) valid
            = validateLoop about rest
                (dictSet valid d.display d.subscribers) from by
          simp [validateLoop, ha, ho]] at h
        rcases ih _ p h with h | ⟨n, hn, d', h1, h2, h3⟩
        · rcases mem_dictSet _ _ _ _ h with h | h
          · exact Or.inr ⟨name, by simp, d, ha, by simpa using ho, h⟩
          · exact Or.inl h
        · exact Or.inr ⟨n, by simp [hn], d', h1, h2, h3⟩

/-- Claim C8.  At most 20 candidate names are existence-checked and each
validated entry records an existing, non-adult sub among the first 20;
only validated names and their query lists survive, in the original
LLM order; and when strictly more than 30% of the checked names fail
validation, the warning is appended while the plan still proceeds with
the validated (filtered) subset. -/
theorem validateLlmPlan_spec (about : String → Option AboutData)
    (plan : QueryPlan) (warnings : List String) :
    ((validateLlmPlan about plan warnings).1.subreddits.Sublist plan.subreddits)
    ∧ (∀ s ∈ (validateLlmPlan about plan warnings).1.subreddits,
        s ∈ (validateSubreddits about plan.subreddits 20).map Prod.fst)
    ∧ (∀ p ∈ validateSubreddits about plan.subreddits 20,
        ∃ name ∈ plan.subreddits.take 20, ∃ d, about name = some d
          ∧ d.over18 = false ∧ p = (d.display, d.subscribers))
    ∧ ((plan.subreddits.take 20).length ≤ 20)
    ∧ (∀ p ∈ (validateLlmPlan about plan warnings).1.sub_queries,
        p.1 ∈ (validateSubreddits about plan.subreddits 20).map Prod.fst
          ∧ p ∈ plan.sub_queries)
    ∧ (0 < min plan.subreddits.length 20 →
        3 * min plan.subreddits.length 20
          < 10 * (min plan.subreddits.length 20
              - (validateSubreddits about plan.subreddits 20).length) →
        validationWarning
            (min plan.subreddits.length 20
              - (validateSubreddits about plan.subreddits 20).length)
            (min plan.subreddits.length 20)
          ∈ (validateLlmPlan about plan warnings).2.1
        ∧ (validateLlmPlan about plan warnings).1.subreddits
            = plan.subreddits.filter (fun s =>
                ((validateSubreddits about plan.subreddits 20).map
                  Prod.fst).contains s)) := by
  refine ⟨List.filter_sublist _, ?_, ?_, ?_, ?_, ?_⟩
  · intro s hs
    have h := List.mem_filter.1 hs
    simpa using h.2
  · intro p hp
    unfold validateSubreddits at hp
    rcases mem_validateLoop about _ [] p hp with h | h
    · cases h
    · exact h
  · rw [List.length_take]
    omega
  · intro p hp
    have h := List.mem_filter.1 hp
    exact ⟨by simpa using h.2, h.1⟩
  · intro h1 h2
    constructor
    · show validationWarning _ _ ∈
        (if 0 < min plan.subreddits.length 20
            ∧ 10 * (min plan.subreddits.length 20
                - (validateSubreddits about plan.subreddits 20).length)
              ≥ 3 * min plan.subreddits.length 20 then
          warnings ++ [validationWarning
            (min plan.subreddits.length 20
              - (validateSubreddits about plan.subreddits 20).length)
            (min plan.subreddits.length 20)]
        else warnings)
      rw [if_pos ⟨h1, by omega⟩]
      simp
    · rfl

/-- Oracle fixture: only the name `"a"` exists. -/
def wAbout : String → Option AboutData :=
  fun name => if name = "a" then some ⟨"a", 10, false⟩ else none

/-- Plan fixture with three suggested subs of which one validates. -/
def wPlanV : QueryPlan :=
  { intent := "t", subreddits := ["a", "b", "c"],
    sub_queries := [("a", ["q"]), ("b", ["qb"])],
    global_queries := ["g"], mode := "m", source := "llm" }

/-- Claim C8, witness.  2 of 3 checked names fail (> 30%): the warning is
recorded and the plan proceeds with the validated sub `"a"`. -/
theorem validateLlmPlan_spec_witness :
    validationWarning 2 3 ∈ (validateLlmPlan wAbout wPlanV []).2.1
    ∧ (validateLlmPlan wAbout wPlanV []).1.subreddits = ["a"] := by
  have h := (validateLlmPlan_spec wAbout wPlanV []).2.2.2.2.2
    (by decide) (by decide)
  exact ⟨h.1, by decide⟩

/-- Claim C10, witness. -/
theorem empty_plan_total_witness :
    perQueryLimit 20 (QueryPlan.mk "i" [] [] ["g"] "pain" "llm").subreddits.length
        = max 2 (min 5 20)
    ∧ (fanOutSearch (fun _ _ _ => []) (fun _ => false)
        (QueryPlan.mk "i" [] [] ["g"] "pain" "llm") 20).2.global_fallback_triggered
        = !false :=
  ⟨(empty_plan_total (fun _ _ _ => []) (fun _ => false) 20
      (QueryPlan.mk "i" [] [] ["g"] "pain" "llm") rfl).2.1,
   (empty_plan_total (fun _ _ _ => []) (fun _ => false) 20
      (QueryPlan.mk "i" [] [] ["g"] "pain" "llm") rfl).2.2⟩

end RedditScout
